import Mathlib

/-!
# vRouter DPDK host layer: packet buffer operations and protocol mutators

A shallow embedding of `src/dpdk/vr_dpdk_host.c`.

* A buffer segment (`struct rte_mbuf`, DPDK 1.x layout) is a record holding the
  contents of its backing region, the offset of `pkt.data` inside that region
  and the length fields.  A chain is the list of its segments, head first:
  `pkt.next` of an element is the element that follows it, `NULL` is `[]`.
* Memory is a list of bytes (`Nat`, each below 256).  `rte_memcpy` returns
  `none` when one of its two ranges leaves its region (undefined behaviour in
  C), so every function that copies returns an `Option`.
* C `int` values are `Int`; conversions between unsigned and signed 32-bit
  values are written out (`int_of_u32`).
-/

namespace VrDpdk

/-! ## Data model -/

/-- One buffer segment: `struct rte_mbuf` with its packet part `pkt`. -/
structure rte_mbuf where
  /-- Address of the backing region (`buf_addr`), the identity of the segment. -/
  buf_addr : Nat
  /-- Contents of the backing region; `buf_len` is its length. -/
  buf : List Nat
  /-- Offset of `pkt.data` from `buf_addr` (`rte_pktmbuf_headroom`). -/
  data_off : Nat
  /-- Field `pkt.data_len` (16 bits). -/
  data_len : Nat
  /-- Field `pkt.pkt_len` (32 bits), meaningful in the head segment. -/
  pkt_len : Nat
  /-- Field `pkt.nb_segs` (8 bits). -/
  nb_segs : Nat
  /-- Field `pkt.in_port`. -/
  in_port : Nat
  /-- Field `ol_flags`. -/
  ol_flags : Nat
  /-- Field `pkt.vlan_macip`. -/
  vlan_macip : Nat
  /-- Field `pkt.hash`. -/
  hash : Nat
  deriving DecidableEq, Repr

/-- Packet descriptor: `struct vr_packet`, stored next to the head segment. -/
structure vr_packet where
  /-- Address of the head segment's backing region. -/
  vp_head : Nat
  vp_data : Nat
  vp_tail : Nat
  vp_len : Nat
  vp_end : Nat
  vp_network_h : Nat
  vp_inner_network_h : Nat
  vp_flags : Nat
  vp_cpu : Nat
  vp_type : Nat
  vp_ttl : Nat
  /-- Interface reference (`vp_if`), `none` for `NULL`. -/
  vp_if : Option Nat
  /-- Next-hop reference (`vp_nh`), `none` for `NULL`. -/
  vp_nh : Option Nat
  deriving DecidableEq, Repr

/-- Errno value `EFAULT`. -/
def EFAULT : Int := 14

/-- Errno value `ENOMEM`. -/
def ENOMEM : Int := 12

/-- Conversion of a 32-bit unsigned value to `int` (two's complement). -/
def int_of_u32 (x : Nat) : Int :=
  if x % 2 ^ 32 < 2 ^ 31 then ((x % 2 ^ 32 : Nat) : Int) else ((x % 2 ^ 32 : Nat) : Int) - 2 ^ 32

/-- Macro `rte_pktmbuf_headroom(m)`: `pkt.data - buf_addr`. -/
def rte_pktmbuf_headroom (m : rte_mbuf) : Nat := m.data_off

/-- Macro `rte_pktmbuf_data_len(m)`. -/
def rte_pktmbuf_data_len (m : rte_mbuf) : Nat := m.data_len

/-- Macro `rte_pktmbuf_pkt_len(m)`. -/
def rte_pktmbuf_pkt_len (m : rte_mbuf) : Nat := m.pkt_len

/-- Copy of `n` bytes from offset `off` of region `src` to offset `pos` of
region `dst`.  The size is a C `int` converted to `size_t`; the result is
`none` when the size is negative or a range leaves its region. -/
def rte_memcpy (dst : List Nat) (pos : Int) (src : List Nat) (off : Int) (n : Int) :
    Option (List Nat) :=
  if 0 ≤ n ∧ 0 ≤ pos ∧ pos + n ≤ dst.length ∧ 0 ≤ off ∧ off + n ≤ src.length then
    some (dst.take pos.toNat ++ (src.drop off.toNat).take n.toNat
      ++ dst.drop (pos.toNat + n.toNat))
  else none

/-- Valid data of one segment: `data_len` bytes from `pkt.data`. -/
def seg_data (m : rte_mbuf) : List Nat := (m.buf.drop m.data_off).take m.data_len

/-- Logical (flattened) byte stream of a chain. -/
def chain_bytes : List rte_mbuf → List Nat
  | [] => []
  | m :: next => seg_data m ++ chain_bytes next

/-- Total length of a chain: the sum of its segments' data-lengths. -/
def chain_len : List rte_mbuf → Nat
  | [] => 0
  | m :: next => m.data_len + chain_len next

/-- Segment invariant: `headroom + data_length ≤ capacity`, with a 16-bit
data-length. -/
def seg_ok (m : rte_mbuf) : Prop :=
  m.data_off + m.data_len ≤ m.buf.length ∧ m.data_len < 2 ^ 16

instance (m : rte_mbuf) : Decidable (seg_ok m) := by
  unfold seg_ok; exact inferInstance

/-- Well-formed chain: a head whose `pkt_len` is the sum of the data-lengths,
every segment satisfying the segment invariant. -/
def chain_ok : List rte_mbuf → Prop
  | [] => False
  | m :: next => m.pkt_len = chain_len (m :: next) ∧ ∀ s ∈ m :: next, seg_ok s

/-! ## Copy bytes out: `dpdk_pktmbuf_copy_bits`, `dpdk_pcopy` -/

/-- The `do { ... } while (len > 0 && NULL != mbuf)` loop of
`dpdk_pktmbuf_copy_bits`.  The state is the current segment pointer, `offset`,
the position of `to` in the destination, `len`, the local `copy` (which keeps
its value from the previous iteration when the `else` branch is taken) and the
destination contents.  Returns the final `len` and the destination. -/
def copy_bits_loop : List rte_mbuf → Int → Int → Int → Int → List Nat →
    Option (Int × List Nat)
  | [], _, _, _, _, _ => none
  | m :: next, offset, pos, len, copy, dst =>
    if offset < (rte_pktmbuf_data_len m : Int) then
      let copy1 : Int := (rte_pktmbuf_data_len m : Int) - offset
      let copy2 : Int := if copy1 > len then len else copy1
      match rte_memcpy dst pos m.buf ((m.data_off : Int) + offset) copy2 with
      | none => none
      | some dst1 =>
        if len - copy2 > 0 ∧ next ≠ [] then
          copy_bits_loop next 0 (pos + copy2) (len - copy2) copy2 dst1
        else some (len - copy2, dst1)
    else
      if len - copy > 0 ∧ next ≠ [] then
        copy_bits_loop next (offset - (rte_pktmbuf_data_len m : Int)) (pos + copy)
          (len - copy) copy dst
      else some (len - copy, dst)

/-- Function `dpdk_pktmbuf_copy_bits(mbuf, offset, to, len)`: the return value
and the destination buffer `to` afterwards. -/
def dpdk_pktmbuf_copy_bits (mbuf : List rte_mbuf) (offset : Int) (dst : List Nat) (len : Int) :
    Option (Int × List Nat) :=
  match mbuf with
  | [] => none
  | m :: _ =>
    if offset > int_of_u32 (rte_pktmbuf_pkt_len m) - len then some (-EFAULT, dst)
    else
      match copy_bits_loop mbuf offset 0 len 0 dst with
      | none => none
      | some (len1, dst1) => if len1 = 0 then some (0, dst1) else some (-EFAULT, dst1)

/-- Function `dpdk_pcopy(dst, p_src, offset, len)`; `src` is the chain of the
descriptor `p_src`, `offset` and `len` are `unsigned int`. -/
def dpdk_pcopy (dst : List Nat) (src : List rte_mbuf) (offset len : Nat) :
    Option (Int × List Nat) :=
  match dpdk_pktmbuf_copy_bits src (int_of_u32 offset) dst (int_of_u32 len) with
  | none => none
  | some (ret, dst1) => if ret ≠ 0 then some (ret, dst1) else some (int_of_u32 len, dst1)

/-- A segment with the given backing bytes, headroom and data-length. -/
def mk_seg (addr : Nat) (buf : List Nat) (off len : Nat) : rte_mbuf :=
  { buf_addr := addr, buf := buf, data_off := off, data_len := len, pkt_len := len,
    nb_segs := 1, in_port := 0, ol_flags := 0, vlan_macip := 0, hash := 0 }

/-! ## Header-pointer resolution: `dpdk_pheader_pointer` -/

/-- Value returned by `dpdk_pheader_pointer`: `NULL`, an address inside a
segment's backing region, or the caller's scratch buffer `buf`. -/
inductive hdr_pointer where
  | null
  | mbuf_addr (addr : Nat)
  | scratch
  deriving DecidableEq, Repr

/-- The `while (hdr_len)` loop of `dpdk_pheader_pointer`.  The first argument is
`m->pkt.next`, `pos` is the position of `tmp_buf` in the scratch buffer and
`hdr_len` is an `unsigned short`. -/
def pheader_loop : List rte_mbuf → Nat → Int → List Nat → Option (hdr_pointer × List Nat)
  | next, hdr_len, pos, buf =>
    if hdr_len = 0 then some (hdr_pointer.scratch, buf)
    else
      match next with
      | [] => some (hdr_pointer.null, buf)
      | m :: next1 =>
        let len : Int :=
          if hdr_len > rte_pktmbuf_data_len m then (rte_pktmbuf_data_len m : Int)
          else (hdr_len : Int)
        match rte_memcpy buf pos m.buf (m.data_off : Int) len with
        | none => none
        | some buf1 =>
          pheader_loop next1 (((hdr_len : Int) - len) % 2 ^ 16).toNat (pos + len) buf1

/-- Function `dpdk_pheader_pointer(pkt, hdr_len, buf)`; `chain` is the chain of
the descriptor.  Returns the pointer and the scratch buffer afterwards. -/
def dpdk_pheader_pointer (pkt : vr_packet) (chain : List rte_mbuf) (hdr_len : Nat)
    (buf : List Nat) : Option (hdr_pointer × List Nat) :=
  match chain with
  | [] => none
  | m :: next =>
    let offset : Int := (pkt.vp_data : Int) - (rte_pktmbuf_headroom m : Int)
    if offset + (hdr_len : Int) < (rte_pktmbuf_data_len m : Int) then
      some (hdr_pointer.mbuf_addr (m.buf_addr + pkt.vp_data), buf)
    else
      let len : Int := (rte_pktmbuf_data_len m : Int) - offset
      match rte_memcpy buf 0 m.buf ((m.data_off : Int) + offset) len with
      | none => none
      | some buf1 =>
        pheader_loop next (((hdr_len : Int) - len) % 2 ^ 16).toNat len buf1

/-! ## Clone: `dpdk_pktmbuf_copy_data`, `dpdk_pktmbuf_copy`, `dpdk_pclone` -/

/-- Modelled from the spec: the Buffer Pool collaborator (`struct rte_mempool`
of the DPDK library, not part of this repository).  It holds the free segments,
all of one configured capacity; `RTE_PKTMBUF_HEADROOM` is the headroom a segment
gets when it is handed out. -/
structure rte_mempool where
  free : List rte_mbuf
  RTE_PKTMBUF_HEADROOM : Nat
  deriving DecidableEq, Repr

/-- Modelled from the spec: `rte_pktmbuf_reset` of the DPDK library, applied to
a segment when the pool hands it out: no next segment, zero lengths, the data
pointer at the default headroom (or at the end of a shorter region). -/
def rte_pktmbuf_reset (hr : Nat) (m : rte_mbuf) : rte_mbuf :=
  { m with pkt_len := 0, vlan_macip := 0, nb_segs := 1, in_port := 255, ol_flags := 0,
           data_off := if hr ≤ m.buf.length then hr else m.buf.length, data_len := 0 }

/-- Modelled from the spec: `allocate(capacity) -> segment | Exhausted`
(`rte_pktmbuf_alloc` of the DPDK library).  Returns the segment, `none` when
the pool is exhausted, and the pool afterwards. -/
def rte_pktmbuf_alloc (mp : rte_mempool) : Option rte_mbuf × rte_mempool :=
  match mp.free with
  | [] => (none, mp)
  | m :: rest => (some (rte_pktmbuf_reset mp.RTE_PKTMBUF_HEADROOM m), { mp with free := rest })

/-- Modelled from the spec: `release(segment)` for every segment of a chain
(`rte_pktmbuf_free` of the DPDK library): each segment goes back to the pool. -/
def rte_pktmbuf_free : List rte_mbuf → rte_mempool → rte_mempool
  | [], mp => mp
  | m :: next, mp => rte_pktmbuf_free next { mp with free := m :: mp.free }

/-- Function `dpdk_pktmbuf_copy_data(dst, src)`; returns `dst` afterwards (its
`pkt.next` is set to `NULL` by the caller's list structure). -/
def dpdk_pktmbuf_copy_data (dst src : rte_mbuf) : Option rte_mbuf :=
  match rte_memcpy dst.buf (dst.data_off : Int) src.buf (src.data_off : Int)
      (src.data_len : Int) with
  | none => none
  | some buf1 =>
    some { dst with ol_flags := src.ol_flags, data_len := src.data_len, nb_segs := 1,
                    in_port := src.in_port, pkt_len := src.data_len,
                    vlan_macip := src.vlan_macip, hash := src.hash, buf := buf1 }

/-- State of the copy loop when it ends: the segments linked so far (head
first), whether `mi` is `NULL`, the pool and the 8-bit counter `nseg`. -/
structure copy_state where
  built : List rte_mbuf
  mi_null : Bool
  mp : rte_mempool
  nseg : Nat
  deriving DecidableEq, Repr

/-- The `do { ... } while ((md = md->pkt.next) != NULL && (mi = rte_pktmbuf_alloc(mp)) != NULL)`
loop of `dpdk_pktmbuf_copy`: `md` is the rest of the source chain, `mi` the
segment allocated for its first element, `built` the copies linked so far. -/
def pktmbuf_copy_loop : List rte_mbuf → rte_mbuf → rte_mempool → List rte_mbuf → Nat →
    Option copy_state
  | [], _, _, _, _ => none
  | md :: next, mi, mp, built, nseg =>
    match dpdk_pktmbuf_copy_data mi md with
    | none => none
    | some mi1 =>
      match next with
      | [] => some { built := built ++ [mi1], mi_null := false, mp := mp,
                     nseg := (nseg + 1) % 256 }
      | md1 :: next1 =>
        match rte_pktmbuf_alloc mp with
        | (none, mp1) => some { built := built ++ [mi1], mi_null := true, mp := mp1,
                                nseg := (nseg + 1) % 256 }
        | (some mi2, mp1) =>
          pktmbuf_copy_loop (md1 :: next1) mi2 mp1 (built ++ [mi1]) ((nseg + 1) % 256)

/-- The stores `mc->pkt.nb_segs = nseg; mc->pkt.pkt_len = pktlen;` on the head
of the copy. -/
def set_head (nseg pktlen : Nat) : List rte_mbuf → List rte_mbuf
  | [] => []
  | mc :: rest => { mc with nb_segs := nseg, pkt_len := pktlen } :: rest

/-- Function `dpdk_pktmbuf_copy(md, mp)`: the copy (`none` for `NULL`) and the
pool afterwards; the outer `none` is a memory fault. -/
def dpdk_pktmbuf_copy (md : List rte_mbuf) (mp : rte_mempool) :
    Option (Option (List rte_mbuf) × rte_mempool) :=
  match rte_pktmbuf_alloc mp with
  | (none, mp1) => some (none, mp1)
  | (some mc, mp1) =>
    match md with
    | [] => none
    | m :: _ =>
      let pktlen := m.pkt_len
      match pktmbuf_copy_loop md mc mp1 [] 0 with
      | none => none
      | some st =>
        let chain := set_head st.nseg pktlen st.built
        if st.mi_null then some (none, rte_pktmbuf_free chain st.mp)
        else some (some chain, st.mp)

/-- Function `dpdk_pclone(pkt)`: `m` is the chain of `pkt`, `mp` is
`vr_dpdk.rss_mempool`.  Returns the descriptor of the copy with its chain
(`none` for `NULL`) and the pool afterwards. -/
def dpdk_pclone (pkt : vr_packet) (m : List rte_mbuf) (mp : rte_mempool) :
    Option (Option (vr_packet × List rte_mbuf) × rte_mempool) :=
  match dpdk_pktmbuf_copy m mp with
  | none => none
  | some (none, mp1) => some (none, mp1)
  | some (some m_copy, mp1) =>
    match m_copy with
    | [] => none
    | mc :: _ => some (some ({ pkt with vp_head := mc.buf_addr }, m_copy), mp1)

/-! ## TCP MSS clamp: `dpdk_adjust_tcp_mss` -/

/-- Why a run of the clamp stops without a result: an access outside the
packet memory, or the loop budget given to the model used up. -/
inductive Stop where
  | fault
  | fuel
  deriving DecidableEq, Repr

/-- Physical interface: the `ethdev_port_id` of its `vif_os` (8 bits). -/
structure vr_interface where
  ethdev_port_id : Nat
  deriving DecidableEq, Repr

/-- Router instance: the bound physical egress interface `vr_eth_if`. -/
structure vrouter where
  vr_eth_if : Option vr_interface
  deriving DecidableEq, Repr

/-- What `dpdk_adjust_tcp_mss` reads besides its arguments: `vrouter_get(0)`,
the MTU lookup `rte_eth_dev_get_mtu` of the DPDK library (`none` when it fails
and stores nothing) and the indeterminate initial value of the local `mtu`. -/
structure mss_env where
  router : Option vrouter
  rte_eth_dev_get_mtu : Nat → Option Nat
  mtu_uninit : Nat

/-- Option kind `TCPOPT_EOL`. -/
def TCPOPT_EOL : Nat := 0

/-- Option kind `TCPOPT_NOP`. -/
def TCPOPT_NOP : Nat := 1

/-- Option kind `TCPOPT_MAXSEG`. -/
def TCPOPT_MAXSEG : Nat := 2

/-- Option length `TCPOLEN_MAXSEG`. -/
def TCPOLEN_MAXSEG : Nat := 4

/-- Size of `struct tcphdr`. -/
def sizeof_tcphdr : Nat := 20

/-- Size of `struct vr_ip`. -/
def sizeof_vr_ip : Nat := 20

/-- Read of one byte of packet memory. -/
def rd (mem : List Nat) (i : Nat) : Except Stop Nat :=
  match mem[i]? with
  | some b => Except.ok b
  | none => Except.error Stop.fault

/-- Store of one byte of packet memory. -/
def wr (mem : List Nat) (i : Nat) (v : Nat) : Except Stop (List Nat) :=
  if i < mem.length then Except.ok (mem.set i v) else Except.error Stop.fault

/-- The statement `max_mss = mtu - (overlay_len + sizeof(struct vr_ip) +
sizeof(struct tcphdr))`, the difference truncated to the 16 bits of `max_mss`. -/
def max_mss_of (mtu overlay_len : Nat) : Nat :=
  (((mtu : Int) - ((overlay_len + sizeof_vr_ip + sizeof_tcphdr : Nat) : Int)) % 2 ^ 16).toNat

/-- The incremental checksum repair: from the host-order value `check` of
`tcph->check`, the old and the new MSS, the host-order value stored back.
`csum` is a 32-bit `unsigned int`. -/
def csum_repair (check pkt_mss max_mss : Nat) : Nat :=
  let csum0 : Nat := 65535 - check
  let csum1 : Nat := (csum0 + (65535 - pkt_mss)) % 2 ^ 32
  let csum2 : Nat := csum1 % 65536 + csum1 / 65536
  let csum3 : Nat := (csum2 + max_mss) % 2 ^ 32
  let csum4 : Nat := csum3 % 65536 + csum3 / 65536
  65535 - csum4 % 65536

/-- Body of `case TCPOPT_MAXSEG` of `dpdk_adjust_tcp_mss`, at option offset
`opt_off`; `base` is the position of `tcph` in the packet memory and `lim` is
`tcph->doff * 4`.  Memory holds bytes, so `(hi << 8) | lo` is `hi * 256 + lo`. -/
def adjust_maxseg (env : mss_env) (router : vrouter) (base lim overlay_len opt_off : Nat)
    (mem : List Nat) : Except Stop (List Nat) :=
  if opt_off + TCPOLEN_MAXSEG > lim then Except.ok mem
  else
    match rd mem (base + opt_off + 1) with
    | Except.error e => Except.error e
    | Except.ok olen =>
      if olen ≠ TCPOLEN_MAXSEG then Except.ok mem
      else
        match rd mem (base + opt_off + 2), rd mem (base + opt_off + 3) with
        | Except.error e, _ => Except.error e
        | _, Except.error e => Except.error e
        | Except.ok b2, Except.ok b3 =>
          let pkt_mss : Nat := (b2 * 256 + b3) % 2 ^ 16
          match router.vr_eth_if with
          | none => Except.ok mem
          | some vif =>
            let port_id : Nat := vif.ethdev_port_id % 256
            let mtu : Nat := ((env.rte_eth_dev_get_mtu port_id).getD env.mtu_uninit) % 2 ^ 16
            let max_mss : Nat := max_mss_of mtu overlay_len
            if pkt_mss > max_mss then
              match wr mem (base + opt_off + 2) (max_mss / 256 % 256) with
              | Except.error e => Except.error e
              | Except.ok mem1 =>
                match wr mem1 (base + opt_off + 3) (max_mss % 256) with
                | Except.error e => Except.error e
                | Except.ok mem2 =>
                  match rd mem2 (base + 16), rd mem2 (base + 17) with
                  | Except.error e, _ => Except.error e
                  | _, Except.error e => Except.error e
                  | Except.ok c0, Except.ok c1 =>
                    let check1 : Nat := csum_repair ((c0 * 256 + c1) % 2 ^ 16) pkt_mss max_mss
                    match wr mem2 (base + 16) (check1 / 256) with
                    | Except.error e => Except.error e
                    | Except.ok mem3 => wr mem3 (base + 17) (check1 % 256)
            else Except.ok mem

/-- The `while (opt_off < (tcph->doff * 4))` loop of `dpdk_adjust_tcp_mss`.
The first argument bounds the number of iterations the model runs. -/
def adjust_loop (env : mss_env) (router : vrouter) (base lim overlay_len : Nat) :
    Nat → Nat → List Nat → Except Stop (List Nat)
  | 0, opt_off, mem => if opt_off < lim then Except.error Stop.fuel else Except.ok mem
  | fuel + 1, opt_off, mem =>
    if opt_off < lim then
      match rd mem (base + opt_off) with
      | Except.error e => Except.error e
      | Except.ok kind =>
        if kind = TCPOPT_EOL then Except.ok mem
        else if kind = TCPOPT_NOP then
          adjust_loop env router base lim overlay_len fuel (opt_off + 1) mem
        else if kind = TCPOPT_MAXSEG then
          adjust_maxseg env router base lim overlay_len opt_off mem
        else if opt_off + 1 = lim then Except.ok mem
        else
          match rd mem (base + opt_off + 1) with
          | Except.error e => Except.error e
          | Except.ok olen =>
            if olen ≠ 0 then
              adjust_loop env router base lim overlay_len fuel (opt_off + olen) mem
            else adjust_loop env router base lim overlay_len fuel (opt_off + 1) mem
    else Except.ok mem

/-- Function `dpdk_adjust_tcp_mss(tcph, m, overlay_len)` on the packet memory
`mem`; `tcph` is the position of the TCP header in it, `none` for `NULL`.
Bit `syn` is bit 1 of byte 13 and `doff` the high half of byte 12.  The loop
is given `doff * 4 - 20` iterations. -/
def dpdk_adjust_tcp_mss (env : mss_env) (mem : List Nat) (tcph : Option Nat)
    (overlay_len : Nat) : Except Stop (List Nat) :=
  match tcph with
  | none => Except.ok mem
  | some base =>
    match rd mem (base + 13) with
    | Except.error e => Except.error e
    | Except.ok flags =>
      if flags / 2 % 2 = 0 then Except.ok mem
      else
        match env.router with
        | none => Except.ok mem
        | some router =>
          match router.vr_eth_if with
          | none => Except.ok mem
          | some _ =>
            match rd mem (base + 12) with
            | Except.error e => Except.error e
            | Except.ok b12 =>
              let lim : Nat := (b12 / 16 % 16) * 4
              adjust_loop env router base lim overlay_len (lim - sizeof_tcphdr)
                sizeof_tcphdr mem

/-- Where the option scan of `dpdk_adjust_tcp_mss` reaches `case TCPOPT_MAXSEG`:
the scan follows the loop's control flow from `opt_off` and returns the offset
of the first option of kind 2 it arrives at, `none` when it ends before
(end-of-options, end of header, or an option cut off by the end of header). -/
def mss_scan (mem : List Nat) (base lim : Nat) : Nat → Nat → Option Nat
  | 0, _ => none
  | fuel + 1, opt_off =>
    if opt_off < lim then
      match mem[base + opt_off]? with
      | none => none
      | some kind =>
        if kind = TCPOPT_EOL then none
        else if kind = TCPOPT_NOP then mss_scan mem base lim fuel (opt_off + 1)
        else if kind = TCPOPT_MAXSEG then some opt_off
        else if opt_off + 1 = lim then none
        else
          match mem[base + opt_off + 1]? with
          | none => none
          | some olen =>
            if olen ≠ 0 then mss_scan mem base lim fuel (opt_off + olen)
            else mss_scan mem base lim fuel (opt_off + 1)
    else none

/-! ## Internet checksum (RFC 1071), the reference for the repaired checksum -/

/-- One's-complement sum of a 16-bit accumulator and a 16-bit word, with
end-around carry. -/
def csum_add (a w : Nat) : Nat := (a + w) % 65536 + (a + w) / 65536

/-- One's-complement sum of the big-endian 16-bit words of a byte string,
starting from `acc`; an odd last byte is padded with zero. -/
def csum_words : Nat → List Nat → Nat
  | acc, [] => acc
  | acc, [b] => csum_add acc (b * 256)
  | acc, b0 :: b1 :: rest => csum_words (csum_add acc (b0 * 256 + b1)) rest

/-- TCP checksum computed from scratch over a segment `seg` (header and
payload) whose checksum field, bytes 16 and 17, is taken as zero; `pseudo` is
the folded sum of the pseudo-header. -/
def tcp_csum_scratch (pseudo : Nat) (seg : List Nat) : Nat :=
  65535 - csum_words pseudo ((seg.set 16 0).set 17 0)

/-- Value of the checksum field of a TCP segment. -/
def tcp_check (seg : List Nat) : Nat := seg.getD 16 0 * 256 + seg.getD 17 0

/-- Receiver's validation: the one's-complement sum over pseudo-header and
segment, checksum field included, is `0xffff`. -/
def tcp_csum_valid (pseudo : Nat) (seg : List Nat) : Prop :=
  csum_words pseudo seg = 65535

instance (pseudo : Nat) (seg : List Nat) : Decidable (tcp_csum_valid pseudo seg) := by
  unfold tcp_csum_valid; exact inferInstance

/-! ## Descriptor operations: `dpdk_preset`, `dpdk_pcow`, `vr_dpdk_packet_get` -/

/-- Constants of the vRouter and DPDK headers that are not part of the source
file: packet types, the checksum flags and the UDP source-port range. -/
structure vr_consts where
  VP_TYPE_NULL : Nat
  VP_TYPE_IP : Nat
  VP_FLAG_CSUM_PARTIAL : Nat
  PKT_TX_IP_CKSUM : Nat
  VR_MUDP_PORT_RANGE_START : Nat
  VR_MUDP_PORT_RANGE_END : Nat
  deriving DecidableEq, Repr

/-- Modelled from the spec: the inline `pkt_len(pkt)` of the vRouter headers,
which are not part of the source file: the descriptor's `length`, the field
`vp_len`. -/
def pkt_len (pkt : vr_packet) : Nat := pkt.vp_len

/-- Modelled from the spec: the inline `pkt_head_len(pkt)` of the vRouter
headers, which are not part of the source file: the descriptor's head length
`vp_tail - vp_data`, as an `unsigned int`. -/
def pkt_head_len (pkt : vr_packet) : Nat :=
  (((pkt.vp_tail : Int) - (pkt.vp_data : Int)) % 2 ^ 32).toNat

/-- Function `dpdk_preset(pkt)`; `m` is the chain of `pkt`.  The offsets are
`unsigned short`. -/
def dpdk_preset (pkt : vr_packet) (m : List rte_mbuf) : Option vr_packet :=
  match m with
  | [] => none
  | mh :: _ =>
    some { pkt with
      vp_data := rte_pktmbuf_headroom mh % 2 ^ 16,
      vp_tail := (rte_pktmbuf_headroom mh + rte_pktmbuf_data_len mh) % 2 ^ 16,
      vp_len := rte_pktmbuf_data_len mh % 2 ^ 16 }

/-- Function `dpdk_pcow(pkt, head_room)`; `mbuf` is the head segment of `pkt`.
Returns the return value, the descriptor and the segment afterwards.  The
store `mbuf->pkt.data = pkt_data(pkt)` puts the data pointer at
`vp_head + vp_data` (the inline `pkt_data` of the vRouter headers: the first
unconsumed byte), an offset from `buf_addr`. -/
def dpdk_pcow (pkt : vr_packet) (mbuf : rte_mbuf) (head_room : Nat) :
    Int × vr_packet × rte_mbuf :=
  let mbuf1 : rte_mbuf :=
    { mbuf with data_off := pkt.vp_head + pkt.vp_data - mbuf.buf_addr,
                pkt_len := pkt_len pkt % 2 ^ 32,
                data_len := pkt_head_len pkt % 2 ^ 16 }
  if head_room > rte_pktmbuf_headroom mbuf1 % 2 ^ 16 then (-ENOMEM, pkt, mbuf1)
  else (0, pkt, mbuf1)

/-- Function `vr_dpdk_packet_get(m, vif)`: `pkt` is the descriptor stored next
to the head segment (its `vp_head` and `vp_end` were set when the pool was
created), `cpu` is the value of `vr_get_cpu()`. -/
def vr_dpdk_packet_get (k : vr_consts) (cpu : Nat) (pkt : vr_packet) (m : List rte_mbuf)
    (vif : Option Nat) : Option vr_packet :=
  match m with
  | [] => none
  | mh :: _ =>
    some { pkt with
      vp_cpu := cpu % 256,
      vp_tail := (rte_pktmbuf_headroom mh + rte_pktmbuf_data_len mh) % 2 ^ 16,
      vp_data := rte_pktmbuf_headroom mh % 2 ^ 16,
      vp_len := rte_pktmbuf_data_len mh % 2 ^ 16,
      vp_if := vif,
      vp_network_h := 0,
      vp_inner_network_h := 0,
      vp_nh := none,
      vp_flags := if mh.ol_flags &&& k.PKT_TX_IP_CKSUM ≠ 0 then 0 ||| k.VP_FLAG_CSUM_PARTIAL
                  else 0,
      vp_ttl := 64,
      vp_type := k.VP_TYPE_NULL }

/-! ## ECMP UDP source port: `dpdk_get_udp_src_port` -/

/-- Forwarding metadata: the flow index, negative when no flow is resolved. -/
structure vr_forwarding_md where
  fmd_flow_index : Int
  deriving DecidableEq, Repr

/-- Flow entry: the stored UDP source port (16 bits). -/
structure vr_flow_entry where
  fe_udp_src_port : Nat
  deriving DecidableEq, Repr

/-- Fragment entry: the ports of the fragment's first piece. -/
structure vr_fragment where
  f_sport : Nat
  f_dport : Nat
  deriving DecidableEq, Repr

/-- Process-wide hash seed state: `hashrnd_inited` and `vr_hashrnd`. -/
structure hash_state where
  hashrnd_inited : Nat
  vr_hashrnd : Nat
  deriving DecidableEq, Repr

/-- What `dpdk_get_udp_src_port` calls outside the source file: the flow and
fragment tables (`vr_get_flow_entry`, `vr_fragment_get`, the latter keyed by
the routing context and the IP header), the keyed hashes `rte_jhash` (over the
five 32-bit key words), `vr_hash` (over bytes) and `vr_hash_2words`, the draw
of `random()`, the inline `vr_dpdk_mbuf_reset` and the constants. -/
structure udp_env where
  consts : vr_consts
  vr_get_flow_entry : Int → Option vr_flow_entry
  vr_fragment_get : Nat → List Nat → Option vr_fragment
  rte_jhash : List Nat → Nat → Nat → Nat
  vr_hash : List Nat → Nat → Nat → Nat
  vr_hash_2words : Nat → Nat → Nat → Nat
  random : Nat
  vr_dpdk_mbuf_reset : vr_packet → rte_mbuf → rte_mbuf

/-- Protocol number `VR_IP_PROTO_TCP`. -/
def VR_IP_PROTO_TCP : Nat := 6

/-- Protocol number `VR_IP_PROTO_UDP`. -/
def VR_IP_PROTO_UDP : Nat := 17

/-- Length `ETH_HLEN` of an Ethernet header. -/
def ETH_HLEN : Nat := 14

/-- Load of a 16-bit value at byte position `i` (little-endian host). -/
def ld16 (mem : List Nat) (i : Nat) : Option Nat :=
  match mem[i]?, mem[i + 1]? with
  | some b0, some b1 => some (b0 + 256 * b1)
  | _, _ => none

/-- Load of a 32-bit value at byte position `i` (little-endian host). -/
def ld32 (mem : List Nat) (i : Nat) : Option Nat :=
  match ld16 mem i, ld16 mem (i + 2) with
  | some w0, some w1 => some (w0 + 65536 * w1)
  | _, _ => none

/-- Modelled from the spec: `vr_ip_transport_header_valid(iph)` of the vRouter
headers, which are not part of the source file.  The transport header is not
present when the packet is a non-initial fragment, that is when the 13-bit
fragment offset of the IP header at `iph` (bytes 6 and 7, network order) is
not zero. -/
def vr_ip_transport_header_valid (mem : List Nat) (iph : Nat) : Option Bool :=
  match mem[iph + 6]?, mem[iph + 7]? with
  | some b6, some b7 => some ((b6 * 256 + b7) % 8192 = 0)
  | _, _ => none

/-- The lazy seeding at the head of `dpdk_get_udp_src_port`. -/
def hashrnd_init (env : udp_env) (hs : hash_state) : hash_state :=
  if hs.hashrnd_inited = 0 then { hashrnd_inited := 1, vr_hashrnd := env.random % 2 ^ 32 }
  else hs

/-- The statement `port_range = VR_MUDP_PORT_RANGE_END -
VR_MUDP_PORT_RANGE_START`, a 32-bit unsigned value. -/
def hash_port_range (k : vr_consts) : Nat :=
  (((k.VR_MUDP_PORT_RANGE_END : Int) - (k.VR_MUDP_PORT_RANGE_START : Int)) % 2 ^ 32).toNat

/-- The statement `port = (uint16_t) (((uint64_t) hashval * port_range) >> 32)`. -/
def hash_port (k : vr_consts) (hashval : Nat) : Nat :=
  ((hashval * hash_port_range k) % 2 ^ 64 / 2 ^ 32) % 2 ^ 16

/-- The tail of `dpdk_get_udp_src_port`: the 32-bit `hashval` mapped into the
port range, with the clamp `if (port > port_range) port = 0` and the 16-bit
return value `port + VR_MUDP_PORT_RANGE_START`. -/
def port_of_hash (k : vr_consts) (hashval : Nat) : Nat :=
  let port : Nat := hash_port k hashval
  let port1 : Nat := if port > hash_port_range k then 0 else port
  (port1 + k.VR_MUDP_PORT_RANGE_START) % 2 ^ 16

/-- The flow entry found by `if (fmd && fmd->fmd_flow_index >= 0)
fentry = vr_get_flow_entry(router, fmd->fmd_flow_index)`, `none` when the
metadata is null, names no flow, or the table holds no entry. -/
def flow_resolved (env : udp_env) (fmd : Option vr_forwarding_md) : Option vr_flow_entry :=
  match fmd with
  | none => none
  | some md => if md.fmd_flow_index ≥ 0 then env.vr_get_flow_entry md.fmd_flow_index else none

/-- The source and destination ports `dpdk_get_udp_src_port` settles on for
an IP packet whose header is at `iph` in the region `mem`: read from the
transport header when it is valid and the protocol is TCP or UDP, taken from
the fragment entry when the header is not valid and an entry exists, zero
otherwise. -/
def udp_ports (env : udp_env) (mem : List Nat) (iph vrf : Nat) : Option (Nat × Nat) :=
  match vr_ip_transport_header_valid mem iph with
  | none => none
  | some true =>
    match mem[iph + 9]? with
    | none => none
    | some ip_proto =>
      if ip_proto = VR_IP_PROTO_TCP ∨ ip_proto = VR_IP_PROTO_UDP then
        match mem[iph]? with
        | none => none
        | some b0 =>
          let l4_hdr : Nat := iph + (b0 % 16) * 4
          match ld16 mem l4_hdr, ld16 mem (l4_hdr + 2) with
          | some sport, some dport => some (sport, dport)
          | _, _ => none
      else some (0, 0)
  | some false =>
    match env.vr_fragment_get vrf ((mem.drop iph).take sizeof_vr_ip) with
    | some frag => some (frag.f_sport % 2 ^ 16, frag.f_dport % 2 ^ 16)
    | none => some (0, 0)

/-- Function `dpdk_get_udp_src_port(pkt, fmd, vrf)`; `mbuf` is the head segment
of `pkt`, `fmd` is `none` for `NULL`, `hs` the seed state.  Returns the port,
the seed state and the segment afterwards; `none` is a load outside the
segment's region. -/
def dpdk_get_udp_src_port (env : udp_env) (hs : hash_state) (pkt : vr_packet)
    (mbuf : rte_mbuf) (fmd : Option vr_forwarding_md) (vrf : Nat) :
    Option (Nat × hash_state × rte_mbuf) :=
  let hs1 := hashrnd_init env hs
  if pkt.vp_type = env.consts.VP_TYPE_IP then
    let iph : Nat := pkt.vp_network_h
    match udp_ports env mbuf.buf iph vrf with
    | none => none
    | some (sport, dport) =>
      match flow_resolved env fmd with
      | some fe => some (fe.fe_udp_src_port % 2 ^ 16, hs1, env.vr_dpdk_mbuf_reset pkt mbuf)
      | none =>
        match ld32 mbuf.buf (iph + 12), ld32 mbuf.buf (iph + 16) with
        | some ip_src, some ip_dst =>
          let hashval : Nat :=
            env.rte_jhash [ip_src, ip_dst, vrf % 2 ^ 16, sport, dport] 20 hs1.vr_hashrnd % 2 ^ 32
          some (port_of_hash env.consts hashval, hs1, env.vr_dpdk_mbuf_reset pkt mbuf)
        | _, _ => none
  else
    if pkt_head_len pkt < ETH_HLEN then some (0, hs1, env.vr_dpdk_mbuf_reset pkt mbuf)
    else if pkt.vp_data + ETH_HLEN ≤ mbuf.buf.length then
      let hashval0 : Nat :=
        env.vr_hash ((mbuf.buf.drop pkt.vp_data).take ETH_HLEN) ETH_HLEN hs1.vr_hashrnd % 2 ^ 32
      let hashval : Nat := env.vr_hash_2words hashval0 (vrf % 2 ^ 16) hs1.vr_hashrnd % 2 ^ 32
      some (port_of_hash env.consts hashval, hs1, mbuf)
    else none

/-! ## Auxiliary definitions and sample inputs -/

/-- Result of overwriting `xs.length` bytes of `buf` at position `pos` by `xs`. -/
def splice (buf : List Nat) (pos : Nat) (xs : List Nat) : List Nat :=
  buf.take pos ++ xs ++ buf.drop (pos + xs.length)

/-- Descriptor with the given data and tail offsets, all other fields zero. -/
def mk_pkt (head data tail len : Nat) : vr_packet :=
  { vp_head := head, vp_data := data, vp_tail := tail, vp_len := len, vp_end := 0,
    vp_network_h := 0, vp_inner_network_h := 0, vp_flags := 0, vp_cpu := 0, vp_type := 0,
    vp_ttl := 0, vp_if := none, vp_nh := none }

/-- Chain of three segments of data-lengths 2, 0 and 2 holding the bytes 1 2 3 4. -/
def chain_2_0_2 : List rte_mbuf :=
  [{ mk_seg 100 [1, 2] 0 2 with pkt_len := 4, nb_segs := 3 }, mk_seg 200 [] 0 0,
   mk_seg 300 [3, 4] 0 2]

/-- Pool of two free 4-byte segments with default headroom 2. -/
def pool_two : rte_mempool :=
  { free := [mk_seg 200 [0, 0, 0, 0] 0 0, mk_seg 300 [0, 0, 0, 0] 0 0],
    RTE_PKTMBUF_HEADROOM := 2 }

/-- Field `tcph->doff` of the TCP header at position `base`, times four: the
declared header length in bytes. -/
def tcp_hdr_len (mem : List Nat) (base : Nat) : Nat := (mem.getD (base + 12) 0 / 16 % 16) * 4

/-- Bit `tcph->syn` of the TCP header at position `base`. -/
def tcp_syn (mem : List Nat) (base : Nat) : Nat := mem.getD (base + 13) 0 / 2 % 2

/-- The fixed TCP header and the declared header lie inside the packet memory,
which holds bytes. -/
def tcp_hdr_in (mem : List Nat) (base : Nat) : Prop :=
  base + sizeof_tcphdr ≤ mem.length ∧ base + tcp_hdr_len mem base ≤ mem.length ∧
    ∀ b ∈ mem, b < 256

instance (mem : List Nat) (base : Nat) : Decidable (tcp_hdr_in mem base) := by
  unfold tcp_hdr_in; exact inferInstance

/-- Router with a bound physical interface on port 0 whose MTU lookup yields
`mtu`. -/
def env_mtu (mtu : Nat) : mss_env :=
  { router := some { vr_eth_if := some { ethdev_port_id := 0 } },
    rte_eth_dev_get_mtu := fun _ => some mtu, mtu_uninit := 0 }

/-- IPv4 header, 10.0.0.1 to 10.0.0.2, protocol TCP, total length 44. -/
def ip_hdr : List Nat :=
  [0x45, 0, 0, 44, 0, 0, 0, 0, 64, 6, 0, 0, 10, 0, 0, 1, 10, 0, 0, 2]

/-- SYN header, data offset 6, with the option MSS 1460 at offset 20 and a
correct checksum for the pseudo-header sum `pseudo_sum 24`. -/
def syn_mss_1460 : List Nat :=
  [0x10, 0, 0, 80, 0, 0, 0, 1, 0, 0, 0, 0, 0x60, 0x02, 0x20, 0, 0x53, 0xd3, 0, 0,
   2, 4, 0x05, 0xb4]

/-- SYN header, data offset 7, options NOP, MSS 1460 (value bytes at the odd
offset 23), NOP, NOP, EOL, with a correct checksum for `pseudo_sum 28`. -/
def syn_nop_mss_1460 : List Nat :=
  [0x10, 0, 0, 80, 0, 0, 0, 1, 0, 0, 0, 0, 0x70, 0x02, 0x20, 0, 145, 126, 0, 0,
   1, 2, 4, 0x05, 0xb4, 1, 1, 0]

/-- Folded pseudo-header sum for 10.0.0.1, 10.0.0.2, protocol 6 and TCP
length `len`. -/
def pseudo_sum (len : Nat) : Nat :=
  csum_words 0 [10, 0, 0, 1, 10, 0, 0, 2, 0, 6, len / 256, len % 256]

/-- Router with a bound physical interface on port 0 whose MTU lookup fails,
the local `mtu` holding `garbage`. -/
def env_mtu_fail (garbage : Nat) : mss_env :=
  { router := some { vr_eth_if := some { ethdev_port_id := 0 } },
    rte_eth_dev_get_mtu := fun _ => none, mtu_uninit := garbage }

/-- The IP header and the two port fields of the transport header it announces
lie inside the region `mem`. -/
def ip_hdr_in (mem : List Nat) (iph : Nat) : Prop :=
  iph + sizeof_vr_ip ≤ mem.length ∧ iph + (mem.getD iph 0 % 16) * 4 + 4 ≤ mem.length

instance (mem : List Nat) (iph : Nat) : Decidable (ip_hdr_in mem iph) := by
  unfold ip_hdr_in; exact inferInstance

/-- Constants with packet types 0 (untyped) and 1 (IP) and the port range
49152 to 65535. -/
def consts_0 : vr_consts :=
  { VP_TYPE_NULL := 0, VP_TYPE_IP := 1, VP_FLAG_CSUM_PARTIAL := 4, PKT_TX_IP_CKSUM := 4096,
    VR_MUDP_PORT_RANGE_START := 49152, VR_MUDP_PORT_RANGE_END := 65535 }

/-- Collaborators for the examples: a flow table holding port 50000 at every
index when `flows` is set, a fragment table holding ports (4001, 80) for
routing context 5, hashes that add up their input. -/
def udp_env_0 (flows : Bool) : udp_env :=
  { consts := consts_0,
    vr_get_flow_entry := fun _ => if flows then some { fe_udp_src_port := 50000 } else none,
    vr_fragment_get := fun vrf _ => if vrf = 5 then some { f_sport := 4001, f_dport := 80 }
                                    else none,
    rte_jhash := fun key _ seed => key.sum + seed,
    vr_hash := fun bytes _ seed => bytes.sum + seed,
    vr_hash_2words := fun a b seed => a + b + seed,
    random := 7,
    vr_dpdk_mbuf_reset := fun _ m => m }

/-- Descriptor of the given type over a frame at data offset 0 with tail 14. -/
def pkt_of_type (vp_type : Nat) : vr_packet :=
  { mk_pkt 100 0 14 14 with vp_type := vp_type }

/-- IPv4 header of a non-initial fragment (fragment offset 185), 10.0.0.1 to
10.0.0.2, protocol TCP. -/
def ip_frag_hdr : List Nat :=
  [0x45, 0, 0, 44, 0, 1, 0, 185, 64, 6, 0, 0, 10, 0, 0, 1, 10, 0, 0, 2]

/-- Bytes of a transport header whose 16-bit loads yield the ports 4001 and 80
on a little-endian host. -/
def l4_ports_4001_80 : List Nat := [0xa1, 0x0f, 80, 0]

/-- Bytes a descriptor addresses at `[data_offset, tail_offset)` in the
backing region of the segment `m`. -/
def pkt_bytes (pkt : vr_packet) (m : rte_mbuf) : List Nat :=
  (m.buf.drop pkt.vp_data).take (pkt.vp_tail - pkt.vp_data)

/-- A descriptor is consistent with its head segment: `data_offset` is the
segment's headroom and `tail_offset` is headroom plus data-length. -/
def pkt_consistent (pkt : vr_packet) (m : rte_mbuf) : Prop :=
  pkt.vp_data = m.data_off ∧ pkt.vp_tail = m.data_off + m.data_len

instance (pkt : vr_packet) (m : rte_mbuf) : Decidable (pkt_consistent pkt m) := by
  unfold pkt_consistent; exact inferInstance

/-- The option offset with which the loop of `dpdk_adjust_tcp_mss` goes on
after the iteration at `opt_off`: one more for a no-op or a zero length byte,
the declared length more for any other option; `none` when the loop condition
is false or the iteration returns. -/
def opt_next (mem : List Nat) (base lim opt_off : Nat) : Option Nat :=
  if opt_off < lim then
    match mem[base + opt_off]? with
    | none => none
    | some kind =>
      if kind = TCPOPT_EOL then none
      else if kind = TCPOPT_NOP then some (opt_off + 1)
      else if kind = TCPOPT_MAXSEG then none
      else if opt_off + 1 = lim then none
      else
        match mem[base + opt_off + 1]? with
        | none => none
        | some olen => if olen ≠ 0 then some (opt_off + olen) else some (opt_off + 1)
  else none

/-- SYN header of 20 bytes whose data-offset field is 3: it declares a header
of 12 bytes. -/
def syn_doff_3 : List Nat :=
  [0x10, 0, 0, 80, 0, 0, 0, 1, 0, 0, 0, 0, 0x30, 0x02, 0x20, 0, 0, 0, 0, 0]

/-! # Theorems -/

/-! ## Memory copies -/

theorem int_of_u32_small (x : Nat) (h : x < 2 ^ 31) : int_of_u32 x = (x : Int) := by
  unfold int_of_u32
  have h1 : x % 2 ^ 32 = x := Nat.mod_eq_of_lt (by omega)
  rw [h1, if_pos h]

theorem int_of_u32_le (x : Nat) : int_of_u32 x ≤ (x : Int) := by
  unfold int_of_u32
  have h1 : x % 2 ^ 32 ≤ x := Nat.mod_le _ _
  split <;> omega

theorem rte_memcpy_eq (dst src : List Nat) (pos off n : Int) (p o k : Nat)
    (hp : pos = (p : Int)) (ho : off = (o : Int)) (hn : n = (k : Int))
    (h1 : p + k ≤ dst.length) (h2 : o + k ≤ src.length) :
    rte_memcpy dst pos src off n = some (splice dst p ((src.drop o).take k)) := by
  subst hp ho hn
  have hlen : ((src.drop o).take k).length = k := by
    rw [List.length_take, List.length_drop]; omega
  unfold rte_memcpy splice
  rw [if_pos (by omega), hlen]
  simp

theorem splice_length (buf : List Nat) (pos : Nat) (xs : List Nat)
    (h : pos + xs.length ≤ buf.length) : (splice buf pos xs).length = buf.length := by
  unfold splice
  simp only [List.length_append, List.length_take, List.length_drop]
  omega

theorem splice_splice (buf : List Nat) (pos : Nat) (xs ys : List Nat)
    (h : pos + xs.length + ys.length ≤ buf.length) :
    splice (splice buf pos xs) (pos + xs.length) ys = splice buf pos (xs ++ ys) := by
  have hA : (buf.take pos).length = pos := by rw [List.length_take]; omega
  have h1 : (splice buf pos xs).take (pos + xs.length) = buf.take pos ++ xs := by
    unfold splice
    rw [List.take_append_eq_append_take]
    simp [hA]
  have h2 : (splice buf pos xs).drop (pos + xs.length + ys.length)
      = buf.drop (pos + xs.length + ys.length) := by
    unfold splice
    rw [List.drop_append_eq_append_drop]
    simp only [List.length_append, hA]
    rw [List.drop_of_length_le (by simp [hA])]
    simp [Nat.add_sub_cancel_left, Nat.add_assoc, Nat.add_comm]
  have h3 : splice (splice buf pos xs) (pos + xs.length) ys
      = (splice buf pos xs).take (pos + xs.length) ++ ys
        ++ (splice buf pos xs).drop (pos + xs.length + ys.length) := rfl
  rw [h3, h1, h2]
  unfold splice
  simp [Nat.add_assoc]

theorem splice_zero_take (buf xs : List Nat) : (splice buf 0 xs).take xs.length = xs := by
  unfold splice
  simp

theorem seg_data_length (m : rte_mbuf) (h : seg_ok m) : (seg_data m).length = m.data_len := by
  unfold seg_data
  rw [List.length_take, List.length_drop]
  have := h.1
  omega

theorem chain_bytes_length (c : List rte_mbuf) (h : ∀ s ∈ c, seg_ok s) :
    (chain_bytes c).length = chain_len c := by
  induction c with
  | nil => rfl
  | cons m next ih =>
    simp only [chain_bytes, chain_len, List.length_append]
    rw [seg_data_length m (h m (List.mem_cons_self _ _)),
      ih (fun s hs => h s (List.mem_cons_of_mem _ hs))]

/-! ## Copy bytes out -/

/-- C1, at the failing input: on the well-formed chain of data-lengths 2, 0, 2
holding 1 2 3 4, `dpdk_pcopy` with offset 0 and length 4 returns 4, yet only the
first two bytes of the destination were written: after the empty segment the
loop advances by the previous iteration's `copy`, so bytes 3 4 never arrive. -/
theorem dpdk_pcopy_empty_segment_short_copy :
    chain_ok chain_2_0_2 ∧
    ((chain_bytes chain_2_0_2).drop 0).take 4 = [1, 2, 3, 4] ∧
    dpdk_pcopy [0, 0, 0, 0] chain_2_0_2 0 4 = some (4, [1, 2, 0, 0]) := by
  refine ⟨?_, by decide, by decide⟩
  unfold chain_2_0_2 chain_ok
  decide

/-- C2, at the failing input: `dpdk_pcopy` takes `offset` and `len` as
`unsigned int` and hands them to the `int` parameters of
`dpdk_pktmbuf_copy_bits`.  The offset `2^32 - 1` arrives as `-1`, the range
check `offset > pkt_len - len` passes, and the loop copies two bytes starting
one byte before the segment's data: on a well-formed chain of 4 bytes, with
`offset + len` far above the total length, the call returns 2, not `-EFAULT`,
and the destination is overwritten with 9 1. -/
theorem dpdk_pcopy_wrapped_offset :
    chain_ok [mk_seg 100 [9, 1, 2, 3, 4] 1 4] ∧
    chain_len [mk_seg 100 [9, 1, 2, 3, 4] 1 4] < 4294967295 + 2 ∧
    int_of_u32 4294967295 = -1 ∧
    dpdk_pcopy [0, 0] [mk_seg 100 [9, 1, 2, 3, 4] 1 4] 4294967295 2 = some (2, [9, 1]) := by
  refine ⟨?_, by decide, by decide, by decide⟩
  unfold chain_ok
  decide

/-- Within the range of a C `int`: for a well-formed chain and `offset`, `len`
below `2^31` with `offset + len` above the chain's total length,
`dpdk_pktmbuf_copy_bits` fails at its range check, before the first copy, and
`dpdk_pcopy` returns the negative value `-EFAULT` with the destination
unchanged. -/
theorem dpdk_pcopy_out_of_range (dst : List Nat) (src : List rte_mbuf) (offset len : Nat)
    (hwf : chain_ok src) (ho : offset < 2 ^ 31) (hl : len < 2 ^ 31)
    (h : chain_len src < offset + len) :
    dpdk_pktmbuf_copy_bits src (offset : Int) dst (len : Int) = some (-EFAULT, dst) ∧
    dpdk_pcopy dst src offset len = some (-EFAULT, dst) ∧ -EFAULT < 0 := by
  cases src with
  | nil => exact absurd hwf (by simp [chain_ok])
  | cons m next =>
    have hpl : m.pkt_len = chain_len (m :: next) := hwf.1
    have hle := int_of_u32_le m.pkt_len
    have hgt : (offset : Int) > int_of_u32 (rte_pktmbuf_pkt_len m) - (len : Int) := by
      unfold rte_pktmbuf_pkt_len
      omega
    have hcb : dpdk_pktmbuf_copy_bits (m :: next) (offset : Int) dst (len : Int)
        = some (-EFAULT, dst) := by
      simp only [dpdk_pktmbuf_copy_bits]
      rw [if_pos hgt]
    refine ⟨hcb, ?_, by decide⟩
    unfold dpdk_pcopy
    rw [int_of_u32_small offset ho, int_of_u32_small len hl, hcb]
    simp [EFAULT]

theorem dpdk_pcopy_out_of_range_witness :
    dpdk_pktmbuf_copy_bits chain_2_0_2 ((3 : Nat) : Int) [7, 7, 7] ((2 : Nat) : Int)
      = some (-EFAULT, [7, 7, 7]) ∧
    dpdk_pcopy [7, 7, 7] chain_2_0_2 3 2 = some (-EFAULT, [7, 7, 7]) ∧ -EFAULT < 0 :=
  dpdk_pcopy_out_of_range [7, 7, 7] chain_2_0_2 3 2
    (by unfold chain_2_0_2 chain_ok; decide) (by decide) (by decide) (by decide)

/-! ## Header-pointer resolution -/

/-- C3, at the failing input: the head segment has headroom 2 and 4 data bytes
1 2 3 4, the descriptor's `data_offset` is 2 and the header length is 4, so the
header lies entirely within the head segment's valid data
(`data_offset - headroom + L = 4 ≤ 4`).  The test `offset + hdr_len < data_len`
is strict, so the function copies the bytes and returns the scratch buffer
instead of the address `buf_addr + data_offset`. -/
theorem dpdk_pheader_pointer_exact_fit_copies :
    seg_ok (mk_seg 100 [9, 9, 1, 2, 3, 4] 2 4) ∧
    2 - (mk_seg 100 [9, 9, 1, 2, 3, 4] 2 4).data_off + 4
      ≤ (mk_seg 100 [9, 9, 1, 2, 3, 4] 2 4).data_len ∧
    dpdk_pheader_pointer (mk_pkt 100 2 6 4) [mk_seg 100 [9, 9, 1, 2, 3, 4] 2 4] 4 [0, 0, 0, 0]
      = some (hdr_pointer.scratch, [1, 2, 3, 4]) ∧
    dpdk_pheader_pointer (mk_pkt 100 2 6 4) [mk_seg 100 [9, 9, 1, 2, 3, 4] 2 4] 4 [0, 0, 0, 0]
      ≠ some (hdr_pointer.mbuf_addr (100 + 2), [0, 0, 0, 0]) := by
  refine ⟨by decide, by decide, by decide, by decide⟩

theorem pheader_loop_spec (next : List rte_mbuf) :
    ∀ (L pos : Nat) (buf : List Nat), (∀ s ∈ next, seg_ok s) → L < 2 ^ 16 →
      pos + L ≤ buf.length →
      (chain_len next < L →
        ∃ buf1, pheader_loop next L (pos : Int) buf = some (hdr_pointer.null, buf1)) ∧
      (L ≤ chain_len next →
        pheader_loop next L (pos : Int) buf
          = some (hdr_pointer.scratch, splice buf pos ((chain_bytes next).take L))) := by
  induction next with
  | nil =>
    intro L pos buf _ _ _
    rw [pheader_loop]
    constructor
    · intro h
      have hL : L ≠ 0 := by simp [chain_len] at h; omega
      exact ⟨buf, by simp [hL]⟩
    · intro h
      have hL : L = 0 := by simp [chain_len] at h; exact h
      subst hL
      simp [splice, chain_bytes]
  | cons m next1 ih =>
    intro L pos buf hs hL hpos
    have hm : seg_ok m := hs m (List.mem_cons_self _ _)
    have hs1 : ∀ s ∈ next1, seg_ok s := fun s h => hs s (List.mem_cons_of_mem _ h)
    rw [pheader_loop]
    by_cases hL0 : L = 0
    · subst hL0
      simp [splice, chain_len]
    · rw [if_neg hL0]
      simp only [rte_pktmbuf_data_len]
      -- number of bytes taken from this segment
      obtain ⟨k, hk, hkL, hkd⟩ : ∃ k : Nat,
          (if L > m.data_len then (m.data_len : Int) else (L : Int)) = (k : Int)
          ∧ k ≤ L ∧ k = min L m.data_len := by
        by_cases hc : L > m.data_len
        · exact ⟨m.data_len, by rw [if_pos hc], by omega, by omega⟩
        · exact ⟨L, by rw [if_neg hc], le_refl _, by omega⟩
      rw [hk]
      have hcopy := rte_memcpy_eq buf m.buf (pos : Int) (m.data_off : Int) (k : Int)
        pos m.data_off k rfl rfl rfl (by omega) (by have := hm.1; omega)
      rw [hcopy]
      simp only
      have hL' : (((L : Int) - (k : Int)) % 2 ^ 16).toNat = L - k := by
        have : ((L : Int) - (k : Int)) = ((L - k : Nat) : Int) := by omega
        rw [this]
        have h2 : ((L - k : Nat) : Int) % 2 ^ 16 = ((L - k : Nat) : Int) :=
          Int.emod_eq_of_lt (by omega) (by omega)
        rw [h2]; simp
      rw [hL']
      have hpc : (pos : Int) + (k : Int) = ((pos + k : Nat) : Int) := by push_cast; rfl
      rw [hpc]
      have htk : ((m.buf.drop m.data_off).take k) = (seg_data m).take k := by
        unfold seg_data
        rw [List.take_take]
        congr 1
        omega
      have hlenk : ((seg_data m).take k).length = k := by
        rw [List.length_take, seg_data_length m hm]; omega
      rw [htk]
      have hlen1 : (splice buf pos ((seg_data m).take k)).length = buf.length :=
        splice_length _ _ _ (by rw [hlenk]; omega)
      have ih1 := ih (L - k) (pos + k) (splice buf pos ((seg_data m).take k)) hs1 (by omega)
        (by rw [hlen1]; omega)
      constructor
      · intro h
        simp only [chain_len] at h
        exact ih1.1 (by omega)
      · intro h
        simp only [chain_len] at h
        rw [ih1.2 (by omega)]
        congr 2
        have := splice_splice buf pos ((seg_data m).take k) ((chain_bytes next1).take (L - k))
          (by
            rw [hlenk, List.length_take, chain_bytes_length next1 hs1]
            omega)
        rw [hlenk] at this
        rw [this]
        congr 1
        simp only [chain_bytes]
        rw [List.take_append_eq_append_take, seg_data_length m hm]
        congr 1
        · by_cases hc : L > m.data_len
          · have hke : k = m.data_len := by omega
            rw [hke, List.take_of_length_le (by rw [seg_data_length m hm]),
              List.take_of_length_le (by rw [seg_data_length m hm]; omega)]
          · have hke : k = L := by omega
            rw [hke]
        · congr 1
          omega

/-- C4: when `data_offset` lies within the head segment's valid data and the
`L` header bytes do not end before the end of that data, `dpdk_pheader_pointer`
returns `NULL` when the chain holds fewer than `L` bytes from `data_offset` on,
and otherwise returns the scratch buffer, whose first `L` bytes are the `L`
bytes of the flattened chain starting at `data_offset`.  The scratch buffer has
room for `L` bytes. -/
theorem dpdk_pheader_pointer_straddle (pkt : vr_packet) (m : rte_mbuf) (next : List rte_mbuf)
    (L : Nat) (buf : List Nat)
    (hsegs : ∀ s ∈ m :: next, seg_ok s)
    (hlo : m.data_off ≤ pkt.vp_data) (hhi : pkt.vp_data ≤ m.data_off + m.data_len)
    (hL : L < 2 ^ 16) (hbuf : L ≤ buf.length)
    (hnofit : m.data_len ≤ (pkt.vp_data - m.data_off) + L) :
    (chain_len (m :: next) - (pkt.vp_data - m.data_off) < L →
      ∃ buf1, dpdk_pheader_pointer pkt (m :: next) L buf = some (hdr_pointer.null, buf1)) ∧
    (L ≤ chain_len (m :: next) - (pkt.vp_data - m.data_off) →
      ∃ buf1, dpdk_pheader_pointer pkt (m :: next) L buf = some (hdr_pointer.scratch, buf1) ∧
        buf1.take L = ((chain_bytes (m :: next)).drop (pkt.vp_data - m.data_off)).take L) := by
  have hm : seg_ok m := hsegs m (List.mem_cons_self _ _)
  have hs1 : ∀ s ∈ next, seg_ok s := fun s h => hsegs s (List.mem_cons_of_mem _ h)
  obtain ⟨o, ho⟩ : ∃ o : Nat, o = pkt.vp_data - m.data_off := ⟨_, rfl⟩
  rw [← ho] at hnofit ⊢
  have hoff : (pkt.vp_data : Int) - (rte_pktmbuf_headroom m : Int) = (o : Int) := by
    unfold rte_pktmbuf_headroom; omega
  have hlen : (rte_pktmbuf_data_len m : Int) - (o : Int) = ((m.data_len - o : Nat) : Int) := by
    unfold rte_pktmbuf_data_len; omega
  have hsrc : (m.data_off : Int) + (o : Int) = ((m.data_off + o : Nat) : Int) := by
    push_cast; rfl
  have hcopy := rte_memcpy_eq buf m.buf 0 ((m.data_off + o : Nat) : Int)
    ((m.data_len - o : Nat) : Int) 0 (m.data_off + o) (m.data_len - o) rfl rfl rfl (by omega)
    (by have := hm.1; omega)
  have hhead : (m.buf.drop (m.data_off + o)).take (m.data_len - o) = (seg_data m).drop o := by
    unfold seg_data
    rw [List.drop_take, List.drop_drop]
  have hheadlen : ((seg_data m).drop o).length = m.data_len - o := by
    rw [List.length_drop, seg_data_length m hm]
  have hL' : (((L : Int) - ((m.data_len - o : Nat) : Int)) % 2 ^ 16).toNat
      = L - (m.data_len - o) := by
    have h1 : ((L : Int) - ((m.data_len - o : Nat) : Int))
        = ((L - (m.data_len - o) : Nat) : Int) := by omega
    rw [h1, Int.emod_eq_of_lt (by omega) (by omega)]
    simp
  have hrun : dpdk_pheader_pointer pkt (m :: next) L buf
      = pheader_loop next (L - (m.data_len - o)) ((m.data_len - o : Nat) : Int)
          (splice buf 0 ((seg_data m).drop o)) := by
    simp only [dpdk_pheader_pointer]
    rw [hoff, if_neg (by unfold rte_pktmbuf_data_len; omega), hlen, hsrc, hcopy, hhead]
    simp only
    rw [hL']
  have hsl : (splice buf 0 ((seg_data m).drop o)).length = buf.length :=
    splice_length _ _ _ (by rw [hheadlen]; omega)
  have hloop := pheader_loop_spec next (L - (m.data_len - o)) (m.data_len - o)
    (splice buf 0 ((seg_data m).drop o)) hs1 (by omega) (by rw [hsl]; omega)
  rw [hrun]
  constructor
  · intro h
    simp only [chain_len] at h
    exact hloop.1 (by omega)
  · intro h
    simp only [chain_len] at h
    refine ⟨_, hloop.2 (by omega), ?_⟩
    have hss := splice_splice buf 0 ((seg_data m).drop o)
      ((chain_bytes next).take (L - (m.data_len - o)))
      (by rw [hheadlen, List.length_take, chain_bytes_length next hs1]; omega)
    rw [hheadlen, Nat.zero_add] at hss
    rw [hss]
    have htot : ((seg_data m).drop o ++ (chain_bytes next).take (L - (m.data_len - o))).length
        = L := by
      rw [List.length_append, hheadlen, List.length_take, chain_bytes_length next hs1]
      omega
    have h1 := splice_zero_take buf
      ((seg_data m).drop o ++ (chain_bytes next).take (L - (m.data_len - o)))
    rw [htot] at h1
    rw [h1]
    simp only [chain_bytes]
    rw [List.drop_append_eq_append_drop, List.take_append_eq_append_take, hheadlen,
      seg_data_length m hm]
    have h2 : o - m.data_len = 0 := by omega
    have h3 : ((seg_data m).drop o).take L = (seg_data m).drop o :=
      List.take_of_length_le (by rw [hheadlen]; omega)
    rw [h2, List.drop_zero, h3]

theorem dpdk_pheader_pointer_straddle_witness :
    ∃ buf1, dpdk_pheader_pointer (mk_pkt 100 2 3 5)
        [mk_seg 100 [9, 1, 2] 1 2, mk_seg 200 [3, 4, 5] 0 3] 3 [0, 0, 0]
        = some (hdr_pointer.scratch, buf1) ∧
      buf1.take 3 = ((chain_bytes [mk_seg 100 [9, 1, 2] 1 2, mk_seg 200 [3, 4, 5] 0 3]).drop
        ((mk_pkt 100 2 3 5).vp_data - (mk_seg 100 [9, 1, 2] 1 2).data_off)).take 3 :=
  (dpdk_pheader_pointer_straddle (mk_pkt 100 2 3 5) (mk_seg 100 [9, 1, 2] 1 2)
    [mk_seg 200 [3, 4, 5] 0 3] 3 [0, 0, 0] (by decide) (by decide) (by decide) (by decide)
    (by decide) (by decide)).2 (by decide)


/-! ## Clone -/

theorem set_head_map_data (nseg pktlen : Nat) (c : List rte_mbuf) :
    (set_head nseg pktlen c).map seg_data = c.map seg_data := by
  cases c <;> rfl

theorem set_head_map_len (nseg pktlen : Nat) (c : List rte_mbuf) :
    (set_head nseg pktlen c).map rte_mbuf.data_len = c.map rte_mbuf.data_len := by
  cases c <;> rfl

theorem rd_eq (mem : List Nat) (i b : Nat) (h : mem[i]? = some b) : rd mem i = Except.ok b := by
  unfold rd
  rw [h]

theorem getElem?_of_lt (mem : List Nat) (i : Nat) (h : i < mem.length) :
    ∃ b, mem[i]? = some b := ⟨mem[i], List.getElem?_eq_getElem h⟩

theorem getD_of_getElem? (mem : List Nat) (i b : Nat) (h : mem[i]? = some b) :
    mem.getD i 0 = b := by
  rw [List.getD_eq_getElem?_getD, h]
  rfl

/-- Where the scan reaches an MSS option, the loop runs the body of
`case TCPOPT_MAXSEG` there, on unmodified memory. -/
theorem adjust_loop_scan_some (env : mss_env) (router : vrouter) (mem : List Nat)
    (base lim overlay_len k : Nat) :
    ∀ (fuel opt_off : Nat), mss_scan mem base lim fuel opt_off = some k →
      adjust_loop env router base lim overlay_len fuel opt_off mem
        = adjust_maxseg env router base lim overlay_len k mem ∧ opt_off ≤ k ∧ k < lim := by
  intro fuel
  induction fuel with
  | zero => intro opt_off h; simp [mss_scan] at h
  | succ fuel ih =>
    intro opt_off h
    rw [mss_scan] at h
    rw [adjust_loop]
    by_cases hlt : opt_off < lim
    · rw [if_pos hlt] at h ⊢
      cases hk : mem[base + opt_off]? with
      | none => rw [hk] at h; simp at h
      | some kind =>
        rw [hk] at h
        simp only at h
        rw [rd_eq mem _ kind hk]
        simp only
        by_cases h0 : kind = TCPOPT_EOL
        · rw [if_pos h0] at h; simp at h
        · rw [if_neg h0] at h ⊢
          by_cases h1 : kind = TCPOPT_NOP
          · rw [if_pos h1] at h ⊢
            have := ih (opt_off + 1) h
            exact ⟨this.1, by omega, this.2.2⟩
          · rw [if_neg h1] at h ⊢
            by_cases h2 : kind = TCPOPT_MAXSEG
            · rw [if_pos h2] at h ⊢
              have hk' : opt_off = k := by simpa using h
              subst hk'
              exact ⟨rfl, le_refl _, hlt⟩
            · rw [if_neg h2] at h ⊢
              by_cases h3 : opt_off + 1 = lim
              · rw [if_pos h3] at h; simp at h
              · rw [if_neg h3] at h ⊢
                cases hl : mem[base + opt_off + 1]? with
                | none => rw [hl] at h; simp at h
                | some olen =>
                  rw [hl] at h
                  simp only at h
                  rw [rd_eq mem _ olen hl]
                  simp only
                  by_cases h4 : olen ≠ 0
                  · rw [if_pos h4] at h ⊢
                    have := ih (opt_off + olen) h
                    exact ⟨this.1, by omega, this.2.2⟩
                  · rw [if_neg h4] at h ⊢
                    have := ih (opt_off + 1) h
                    exact ⟨this.1, by omega, this.2.2⟩
    · rw [if_neg hlt] at h; simp at h

/-- Where the scan ends without reaching an MSS option, the header lying in
memory and the loop budget covering the rest of the header, the loop returns
with the memory unmodified. -/
theorem adjust_loop_scan_none (env : mss_env) (router : vrouter) (mem : List Nat)
    (base lim overlay_len : Nat) (hmem : base + lim ≤ mem.length) :
    ∀ (fuel opt_off : Nat), lim ≤ opt_off + fuel →
      mss_scan mem base lim fuel opt_off = none →
      adjust_loop env router base lim overlay_len fuel opt_off mem = Except.ok mem := by
  intro fuel
  induction fuel with
  | zero =>
    intro opt_off hfuel _
    rw [adjust_loop, if_neg (by omega)]
  | succ fuel ih =>
    intro opt_off hfuel h
    rw [mss_scan] at h
    rw [adjust_loop]
    by_cases hlt : opt_off < lim
    · rw [if_pos hlt] at h ⊢
      obtain ⟨kind, hk⟩ := getElem?_of_lt mem (base + opt_off) (by omega)
      rw [hk] at h
      simp only at h
      rw [rd_eq mem _ kind hk]
      simp only
      by_cases h0 : kind = TCPOPT_EOL
      · rw [if_pos h0]
      · rw [if_neg h0] at h ⊢
        by_cases h1 : kind = TCPOPT_NOP
        · rw [if_pos h1] at h ⊢
          exact ih (opt_off + 1) (by omega) h
        · rw [if_neg h1] at h ⊢
          by_cases h2 : kind = TCPOPT_MAXSEG
          · rw [if_pos h2] at h; simp at h
          · rw [if_neg h2] at h ⊢
            by_cases h3 : opt_off + 1 = lim
            · rw [if_pos h3]
            · rw [if_neg h3] at h ⊢
              obtain ⟨olen, hl⟩ := getElem?_of_lt mem (base + opt_off + 1) (by omega)
              rw [hl] at h
              simp only at h
              rw [rd_eq mem _ olen hl]
              simp only
              by_cases h4 : olen ≠ 0
              · rw [if_pos h4] at h ⊢
                exact ih (opt_off + olen) (by omega) h
              · rw [if_neg h4] at h ⊢
                exact ih (opt_off + 1) (by omega) h
    · rw [if_neg hlt]

theorem max_mss_of_eq (t overlay_len : Nat) (ht : t < 2 ^ 16) (hfit : overlay_len + 40 ≤ t) :
    max_mss_of t overlay_len = t - (overlay_len + 40) := by
  unfold max_mss_of sizeof_vr_ip sizeof_tcphdr
  have h1 : ((t : Int) - ((overlay_len + 20 + 20 : Nat) : Int))
      = ((t - (overlay_len + 40) : Nat) : Int) := by omega
  rw [h1, Int.emod_eq_of_lt (by omega) (by omega)]
  simp

theorem wr_eq (mem : List Nat) (i v : Nat) (h : i < mem.length) :
    wr mem i v = Except.ok (mem.set i v) := by
  unfold wr
  rw [if_pos h]

/-- The body of `case TCPOPT_MAXSEG` at a well-formed MSS option inside the
header, the MTU `t` being known and at least `overlay_len + 40`. -/
theorem adjust_maxseg_spec (env : mss_env) (router : vrouter) (vif : vr_interface)
    (mem : List Nat) (base lim overlay_len k t b2 b3 : Nat)
    (hvif : router.vr_eth_if = some vif)
    (hmtu : env.rte_eth_dev_get_mtu (vif.ethdev_port_id % 256) = some t)
    (ht : t < 2 ^ 16) (hfit : overlay_len + 40 ≤ t)
    (hk : 20 ≤ k) (hin : k + 4 ≤ lim) (hmem : base + lim ≤ mem.length)
    (holen : mem[base + k + 1]? = some 4)
    (hb2 : mem[base + k + 2]? = some b2) (hb3 : mem[base + k + 3]? = some b3)
    (hb2lt : b2 < 256) (hb3lt : b3 < 256) :
    ∃ mem1, adjust_maxseg env router base lim overlay_len k mem = Except.ok mem1 ∧
      mem1.length = mem.length ∧
      (b2 * 256 + b3 > t - (overlay_len + 40) →
        mem1[base + k + 2]? = some ((t - (overlay_len + 40)) / 256) ∧
        mem1[base + k + 3]? = some ((t - (overlay_len + 40)) % 256)) ∧
      (¬ b2 * 256 + b3 > t - (overlay_len + 40) → mem1 = mem) := by
  have hmss : (b2 * 256 + b3) % 2 ^ 16 = b2 * 256 + b3 := Nat.mod_eq_of_lt (by omega)
  have hmt : (((env.rte_eth_dev_get_mtu (vif.ethdev_port_id % 256)).getD env.mtu_uninit)
      % 2 ^ 16) = t := by
    rw [hmtu]
    exact Nat.mod_eq_of_lt ht
  unfold adjust_maxseg
  rw [if_neg (by unfold TCPOLEN_MAXSEG; omega), rd_eq mem _ 4 holen]
  simp only
  rw [if_neg (by unfold TCPOLEN_MAXSEG; simp), rd_eq mem _ b2 hb2, rd_eq mem _ b3 hb3]
  simp only
  rw [hvif]
  simp only
  rw [hmss, hmt, max_mss_of_eq t overlay_len ht hfit]
  by_cases hgt : b2 * 256 + b3 > t - (overlay_len + 40)
  · rw [if_pos hgt]
    rw [wr_eq mem _ _ (by omega)]
    simp only
    rw [wr_eq _ _ _ (by rw [List.length_set]; omega)]
    simp only
    obtain ⟨c0, hc0⟩ := getElem?_of_lt
      ((mem.set (base + k + 2) ((t - (overlay_len + 40)) / 256 % 256)).set (base + k + 3)
        ((t - (overlay_len + 40)) % 256)) (base + 16)
      (by simp only [List.length_set]; omega)
    obtain ⟨c1, hc1⟩ := getElem?_of_lt
      ((mem.set (base + k + 2) ((t - (overlay_len + 40)) / 256 % 256)).set (base + k + 3)
        ((t - (overlay_len + 40)) % 256)) (base + 17)
      (by simp only [List.length_set]; omega)
    rw [rd_eq _ _ c0 hc0, rd_eq _ _ c1 hc1]
    simp only
    rw [wr_eq _ _ _ (by simp only [List.length_set]; omega)]
    simp only
    rw [wr_eq _ _ _ (by simp only [List.length_set]; omega)]
    refine ⟨_, rfl, by simp only [List.length_set], ?_, fun h => absurd hgt h⟩
    intro _
    have hdiv : (t - (overlay_len + 40)) / 256 % 256 = (t - (overlay_len + 40)) / 256 :=
      Nat.mod_eq_of_lt (by omega)
    constructor
    · rw [List.getElem?_set_ne (by omega), List.getElem?_set_ne (by omega),
        List.getElem?_set_ne (by omega), List.getElem?_set_self (by omega), hdiv]
    · rw [List.getElem?_set_ne (by omega), List.getElem?_set_ne (by omega),
        List.getElem?_set_self (by rw [List.length_set]; omega)]
  · rw [if_neg hgt]
    exact ⟨mem, rfl, rfl, fun h => absurd h hgt, fun _ => rfl⟩

theorem getElem?_getD (mem : List Nat) (i : Nat) (h : i < mem.length) :
    mem[i]? = some (mem.getD i 0) := by
  obtain ⟨b, hb⟩ := getElem?_of_lt mem i h
  rw [hb, getD_of_getElem? mem i b hb]

/-- With the TCP header inside the packet memory, `dpdk_adjust_tcp_mss` is the
cascade of its guards followed by the option loop. -/
theorem adjust_unfold (env : mss_env) (mem : List Nat) (base overlay_len : Nat)
    (hin : tcp_hdr_in mem base) :
    dpdk_adjust_tcp_mss env mem (some base) overlay_len
      = if tcp_syn mem base = 0 then Except.ok mem
        else
          match env.router with
          | none => Except.ok mem
          | some router =>
            match router.vr_eth_if with
            | none => Except.ok mem
            | some _ =>
              adjust_loop env router base (tcp_hdr_len mem base) overlay_len
                (tcp_hdr_len mem base - 20) 20 mem := by
  have h20 : base + 20 ≤ mem.length := hin.1
  simp only [dpdk_adjust_tcp_mss]
  rw [rd_eq mem _ _ (getElem?_getD mem (base + 13) (by omega)),
    rd_eq mem _ _ (getElem?_getD mem (base + 12) (by omega))]
  rfl

/-- C7: a SYN header inside the packet memory whose option scan reaches, at
offset `k`, a max-segment-size option with length byte 4 lying inside the
header, a router with a bound egress interface whose MTU lookup yields `t`, and
`overlay_len + 40 ≤ t`.  After `dpdk_adjust_tcp_mss` the two MSS bytes hold,
big-endian, the minimum of the advertised value and
`t - (overlay_len + 20 + 20)`. -/
theorem dpdk_adjust_tcp_mss_clamps (env : mss_env) (mem : List Nat)
    (base overlay_len t k : Nat) (router : vrouter) (vif : vr_interface)
    (hin : tcp_hdr_in mem base) (hsyn : tcp_syn mem base = 1)
    (hrouter : env.router = some router) (hvif : router.vr_eth_if = some vif)
    (hmtu : env.rte_eth_dev_get_mtu (vif.ethdev_port_id % 256) = some t)
    (ht : t < 2 ^ 16) (hfit : overlay_len + 40 ≤ t)
    (hscan : mss_scan mem base (tcp_hdr_len mem base) (tcp_hdr_len mem base - 20) 20 = some k)
    (hwf : k + 4 ≤ tcp_hdr_len mem base) (holen : mem.getD (base + k + 1) 0 = 4) :
    ∃ mem1, dpdk_adjust_tcp_mss env mem (some base) overlay_len = Except.ok mem1 ∧
      mem1.getD (base + k + 2) 0 < 256 ∧ mem1.getD (base + k + 3) 0 < 256 ∧
      mem1.getD (base + k + 2) 0 * 256 + mem1.getD (base + k + 3) 0
        = min (mem.getD (base + k + 2) 0 * 256 + mem.getD (base + k + 3) 0)
            (t - (overlay_len + 20 + 20)) := by
  have hlim : base + tcp_hdr_len mem base ≤ mem.length := hin.2.1
  have hbytes : ∀ i, i < mem.length → mem.getD i 0 < 256 := by
    intro i hi
    have hget := getElem?_getD mem i hi
    exact hin.2.2 _ (List.getElem?_mem hget)
  obtain ⟨hloop, hk20, _⟩ := adjust_loop_scan_some env router mem base
    (tcp_hdr_len mem base) overlay_len k _ _ hscan
  have h1 := getElem?_getD mem (base + k + 1) (by omega)
  rw [holen] at h1
  obtain ⟨mem1, hrun, hlen, hgt, hle⟩ := adjust_maxseg_spec env router vif mem base
    (tcp_hdr_len mem base) overlay_len k t _ _ hvif hmtu ht hfit hk20 hwf hlim h1
    (getElem?_getD mem (base + k + 2) (by omega)) (getElem?_getD mem (base + k + 3) (by omega))
    (hbytes _ (by omega)) (hbytes _ (by omega))
  refine ⟨mem1, ?_, ?_⟩
  · rw [adjust_unfold env mem base overlay_len hin, if_neg (by omega), hrouter]
    simp only
    rw [hvif]
    simp only
    rw [hloop, hrun]
  · have hmax : t - (overlay_len + 20 + 20) = t - (overlay_len + 40) := by omega
    rw [hmax]
    by_cases hc : mem.getD (base + k + 2) 0 * 256 + mem.getD (base + k + 3) 0
        > t - (overlay_len + 40)
    · obtain ⟨hhi, hlo⟩ := hgt hc
      rw [getD_of_getElem? mem1 _ _ hhi, getD_of_getElem? mem1 _ _ hlo,
        Nat.min_eq_right (Nat.le_of_lt hc)]
      refine ⟨by omega, by omega, ?_⟩
      exact Nat.div_add_mod' _ _
    · rw [hle hc, Nat.min_eq_left (Nat.le_of_not_gt hc)]
      exact ⟨hbytes _ (by omega), hbytes _ (by omega), rfl⟩

theorem dpdk_adjust_tcp_mss_clamps_witness :
    ∃ mem1, dpdk_adjust_tcp_mss (env_mtu 1400) (ip_hdr ++ syn_mss_1460) (some 20) 0
        = Except.ok mem1 ∧
      mem1.getD (20 + 20 + 2) 0 < 256 ∧ mem1.getD (20 + 20 + 3) 0 < 256 ∧
      mem1.getD (20 + 20 + 2) 0 * 256 + mem1.getD (20 + 20 + 3) 0
        = min ((ip_hdr ++ syn_mss_1460).getD (20 + 20 + 2) 0 * 256
            + (ip_hdr ++ syn_mss_1460).getD (20 + 20 + 3) 0) (1400 - (0 + 20 + 20)) :=
  dpdk_adjust_tcp_mss_clamps (env_mtu 1400) (ip_hdr ++ syn_mss_1460) 20 0 1400 20
    { vr_eth_if := some { ethdev_port_id := 0 } } { ethdev_port_id := 0 }
    (by decide) (by decide) rfl rfl rfl (by decide) (by decide) (by decide) (by decide)
    (by decide)

/-- C8, at the failing input: a SYN header whose options are NOP, MSS 1460,
NOP, NOP, EOL, so that the MSS value bytes sit at the odd offsets 23 and 24 and
straddle two 16-bit checksum words.  The checksum is correct before the call;
with MTU 1400 the clamp rewrites the MSS to 1360 and repairs the checksum as if
the value were one aligned word: the stored checksum differs from the one
computed from scratch and the segment no longer validates. -/
theorem dpdk_adjust_tcp_mss_odd_offset_checksum :
    tcp_csum_valid (pseudo_sum 28) syn_nop_mss_1460 ∧
    tcp_check syn_nop_mss_1460 = tcp_csum_scratch (pseudo_sum 28) syn_nop_mss_1460 ∧
    ∃ mem1, dpdk_adjust_tcp_mss (env_mtu 1400) syn_nop_mss_1460 (some 0) 0 = Except.ok mem1 ∧
      mem1.getD 23 0 * 256 + mem1.getD 24 0 = 1360 ∧
      tcp_check mem1 = 37346 ∧ tcp_csum_scratch (pseudo_sum 28) mem1 = 62846 ∧
      ¬ tcp_csum_valid (pseudo_sum 28) mem1 := by
  refine ⟨by decide, by decide, _, rfl, ?_, ?_, ?_, ?_⟩ <;> decide

/-- C9 as stated fails: for the SYN packet made of an IP header and a TCP header
with the option MSS 1460, MTU 1400 and overlay length 0, the clamp leaves
1360 = 1400 - (0 + 20 + 20) in the MSS bytes, not 1348. -/
theorem dpdk_adjust_tcp_mss_1400_not_1348 :
    ∃ mem1, dpdk_adjust_tcp_mss (env_mtu 1400) (ip_hdr ++ syn_mss_1460) (some 20) 0
        = Except.ok mem1 ∧
      (ip_hdr ++ syn_mss_1460).getD 42 0 * 256 + (ip_hdr ++ syn_mss_1460).getD 43 0 = 1460 ∧
      mem1.getD 42 0 * 256 + mem1.getD 43 0 = 1360 ∧
      mem1.getD 42 0 * 256 + mem1.getD 43 0 ≠ 1348 := by
  refine ⟨_, rfl, ?_, ?_, ?_⟩ <;> decide

/-- C9, as amended: for a SYN header inside the packet memory whose option scan
reaches a well-formed MSS option holding 1460 (bytes 5 and 180), an egress
interface of MTU 1400 and overlay length 0, the clamp rewrites the MSS bytes to
1360 (bytes 5 and 80). -/
theorem dpdk_adjust_tcp_mss_1400_is_1360 (env : mss_env) (mem : List Nat) (base k : Nat)
    (router : vrouter) (vif : vr_interface)
    (hin : tcp_hdr_in mem base) (hsyn : tcp_syn mem base = 1)
    (hrouter : env.router = some router) (hvif : router.vr_eth_if = some vif)
    (hmtu : env.rte_eth_dev_get_mtu (vif.ethdev_port_id % 256) = some 1400)
    (hscan : mss_scan mem base (tcp_hdr_len mem base) (tcp_hdr_len mem base - 20) 20 = some k)
    (hwf : k + 4 ≤ tcp_hdr_len mem base) (holen : mem.getD (base + k + 1) 0 = 4)
    (hhi : mem.getD (base + k + 2) 0 = 5) (hlo : mem.getD (base + k + 3) 0 = 180) :
    ∃ mem1, dpdk_adjust_tcp_mss env mem (some base) 0 = Except.ok mem1 ∧
      mem1.getD (base + k + 2) 0 = 5 ∧ mem1.getD (base + k + 3) 0 = 80 := by
  have hlim : base + tcp_hdr_len mem base ≤ mem.length := hin.2.1
  obtain ⟨hloop, hk20, _⟩ := adjust_loop_scan_some env router mem base
    (tcp_hdr_len mem base) 0 k _ _ hscan
  have h1 := getElem?_getD mem (base + k + 1) (by omega)
  have h2 := getElem?_getD mem (base + k + 2) (by omega)
  have h3 := getElem?_getD mem (base + k + 3) (by omega)
  rw [holen] at h1
  rw [hhi] at h2
  rw [hlo] at h3
  obtain ⟨mem1, hrun, _, hgt, _⟩ := adjust_maxseg_spec env router vif mem base
    (tcp_hdr_len mem base) 0 k 1400 5 180 hvif hmtu (by decide) (by decide) hk20 hwf hlim
    h1 h2 h3 (by decide) (by decide)
  obtain ⟨hb2, hb3⟩ := hgt (by decide)
  refine ⟨mem1, ?_, getD_of_getElem? mem1 _ _ hb2, getD_of_getElem? mem1 _ _ hb3⟩
  rw [adjust_unfold env mem base 0 hin, if_neg (by omega), hrouter]
  simp only
  rw [hvif]
  simp only
  rw [hloop, hrun]

theorem dpdk_adjust_tcp_mss_1400_is_1360_witness :
    ∃ mem1, dpdk_adjust_tcp_mss (env_mtu 1400) (ip_hdr ++ syn_mss_1460) (some 20) 0
        = Except.ok mem1 ∧
      mem1.getD (20 + 20 + 2) 0 = 5 ∧ mem1.getD (20 + 20 + 3) 0 = 80 :=
  dpdk_adjust_tcp_mss_1400_is_1360 (env_mtu 1400) (ip_hdr ++ syn_mss_1460) 20 20
    { vr_eth_if := some { ethdev_port_id := 0 } } { ethdev_port_id := 0 }
    (by decide) (by decide) rfl rfl rfl (by decide) (by decide) (by decide) (by decide)
    (by decide)

/-- C10: `dpdk_adjust_tcp_mss` returns with every byte of the packet memory
unchanged when the header pointer is null, the SYN bit is clear, no router is
bound, the router has no physical egress interface, the option scan ends
without reaching an MSS option, or the MSS option it reaches is cut off by the
end of the header or has a length byte other than 4.  A non-null header lies
inside the packet memory. -/
theorem dpdk_adjust_tcp_mss_unchanged (env : mss_env) (mem : List Nat) (tcph : Option Nat)
    (overlay_len : Nat)
    (hin : ∀ base, tcph = some base → tcp_hdr_in mem base)
    (h : tcph = none ∨
      (∃ base, tcph = some base ∧ tcp_syn mem base = 0) ∨
      env.router = none ∨
      (∃ router, env.router = some router ∧ router.vr_eth_if = none) ∨
      (∃ base, tcph = some base ∧
        mss_scan mem base (tcp_hdr_len mem base) (tcp_hdr_len mem base - 20) 20 = none) ∨
      (∃ base k, tcph = some base ∧
        mss_scan mem base (tcp_hdr_len mem base) (tcp_hdr_len mem base - 20) 20 = some k ∧
        (tcp_hdr_len mem base < k + 4 ∨ mem.getD (base + k + 1) 0 ≠ 4))) :
    dpdk_adjust_tcp_mss env mem tcph overlay_len = Except.ok mem := by
  cases htc : tcph with
  | none => rfl
  | some base =>
    have hin1 := hin base htc
    have hlim : base + tcp_hdr_len mem base ≤ mem.length := hin1.2.1
    rw [adjust_unfold env mem base overlay_len hin1]
    by_cases hsyn : tcp_syn mem base = 0
    · rw [if_pos hsyn]
    · rw [if_neg hsyn]
      cases hr : env.router with
      | none => rfl
      | some router =>
        simp only
        cases hv : router.vr_eth_if with
        | none => rfl
        | some vif =>
          simp only
          rcases h with h | ⟨b, hb, h⟩ | h | ⟨r, hr1, h⟩ | ⟨b, hb, h⟩ | ⟨b, k, hb, h, hbad⟩
          · rw [htc] at h; simp at h
          · rw [htc] at hb
            have hbe : base = b := by simpa using hb
            subst hbe
            exact absurd h hsyn
          · rw [hr] at h; simp at h
          · rw [hr] at hr1
            have hre : router = r := by simpa using hr1
            subst hre
            rw [hv] at h; simp at h
          · rw [htc] at hb
            have hbe : base = b := by simpa using hb
            subst hbe
            exact adjust_loop_scan_none env router mem base (tcp_hdr_len mem base)
              overlay_len hlim _ _ (by omega) h
          · rw [htc] at hb
            have hbe : base = b := by simpa using hb
            subst hbe
            obtain ⟨hloop, _, hklt⟩ := adjust_loop_scan_some env router mem base
              (tcp_hdr_len mem base) overlay_len k _ _ h
            rw [hloop]
            unfold adjust_maxseg
            by_cases hcut : k + TCPOLEN_MAXSEG > tcp_hdr_len mem base
            · rw [if_pos hcut]
            · rw [if_neg hcut]
              have hcut4 : ¬ k + 4 > tcp_hdr_len mem base := hcut
              have hlen : mem.getD (base + k + 1) 0 ≠ 4 := by
                rcases hbad with hbad | hbad
                · omega
                · exact hbad
              rw [rd_eq mem _ _ (getElem?_getD mem (base + k + 1) (by omega))]
              simp only
              rw [if_pos (by unfold TCPOLEN_MAXSEG; exact hlen)]

theorem dpdk_adjust_tcp_mss_unchanged_witness :
    dpdk_adjust_tcp_mss (env_mtu 1400) [0x10, 0, 0, 80, 0, 0, 0, 1, 0, 0, 0, 0, 0x60, 0x02,
        0x20, 0, 0, 0, 0, 0, 1, 1, 1, 0] (some 0) 0
      = Except.ok [0x10, 0, 0, 80, 0, 0, 0, 1, 0, 0, 0, 0, 0x60, 0x02, 0x20, 0, 0, 0, 0, 0,
          1, 1, 1, 0] :=
  dpdk_adjust_tcp_mss_unchanged (env_mtu 1400) [0x10, 0, 0, 80, 0, 0, 0, 1, 0, 0, 0, 0, 0x60,
      0x02, 0x20, 0, 0, 0, 0, 0, 1, 1, 1, 0] (some 0) 0
    (by intro base hb
        have hbe : 0 = base := by simpa using hb
        subst hbe
        decide)
    (Or.inr (Or.inr (Or.inr (Or.inr (Or.inl ⟨0, rfl, by decide⟩)))))


/-! ## Copy and header pointer away from the failing inputs -/

/-- The copy loop once copying has begun (`offset` is 0), on segments that all
hold data: it delivers the next `len` bytes of the chain at `pos` and ends with
`len` zero, whatever `copy` was left by the previous iteration. -/
theorem copy_bits_loop_copying (c : List rte_mbuf) :
    ∀ (pos len : Nat) (copy : Int) (dst : List Nat), c ≠ [] →
      (∀ s ∈ c, seg_ok s ∧ 0 < s.data_len) → len ≤ chain_len c → pos + len ≤ dst.length →
      copy_bits_loop c 0 (pos : Int) (len : Int) copy dst
        = some (0, splice dst pos ((chain_bytes c).take len)) := by
  induction c with
  | nil => intro _ _ _ _ h; exact absurd rfl h
  | cons m next ih =>
    intro pos len copy dst _ hs hlen hdst
    have hm := hs m (List.mem_cons_self _ _)
    have hs1 : ∀ s ∈ next, seg_ok s ∧ 0 < s.data_len :=
      fun s h => hs s (List.mem_cons_of_mem _ h)
    simp only [chain_len] at hlen
    rw [copy_bits_loop]
    simp only [rte_pktmbuf_data_len]
    rw [if_pos (by have := hm.2; omega)]
    obtain ⟨k, hk, hkd⟩ : ∃ k : Nat,
        (if (m.data_len : Int) - 0 > (len : Int) then (len : Int) else (m.data_len : Int) - 0)
          = (k : Int) ∧ k = min len m.data_len := by
      by_cases hc : (m.data_len : Int) - 0 > (len : Int)
      · exact ⟨len, by rw [if_pos hc], by omega⟩
      · exact ⟨m.data_len, by rw [if_neg hc]; omega, by omega⟩
    rw [hk]
    rw [rte_memcpy_eq dst m.buf (pos : Int) ((m.data_off : Int) + 0) (k : Int) pos m.data_off k
      rfl (by omega) rfl (by omega) (by have := hm.1.1; omega)]
    simp only
    have htk : ((m.buf.drop m.data_off).take k) = (seg_data m).take k := by
      unfold seg_data
      rw [List.take_take]
      congr 1
      omega
    have hlenk : ((seg_data m).take k).length = k := by
      rw [List.length_take, seg_data_length m hm.1]; omega
    rw [htk]
    have hsplit : (chain_bytes (m :: next)).take len
        = (seg_data m).take k ++ (chain_bytes next).take (len - k) := by
      simp only [chain_bytes]
      rw [List.take_append_eq_append_take, seg_data_length m hm.1]
      by_cases hc : len ≤ m.data_len
      · have hke : k = len := by omega
        rw [hke]
        have h0 : len - m.data_len = 0 := by omega
        rw [h0, Nat.sub_self]
      · have hke : k = m.data_len := by omega
        have ha : (seg_data m).take len = seg_data m :=
          List.take_of_length_le (by rw [seg_data_length m hm.1]; omega)
        have hb : (seg_data m).take m.data_len = seg_data m :=
          List.take_of_length_le (by rw [seg_data_length m hm.1])
        rw [hke, ha, hb]
    by_cases hcont : (len : Int) - (k : Int) > 0 ∧ next ≠ []
    · rw [if_pos hcont]
      have hke : k = m.data_len := by omega
      have h1 : (len : Int) - (k : Int) = ((len - k : Nat) : Int) := by omega
      have h2 : (pos : Int) + (k : Int) = ((pos + k : Nat) : Int) := by push_cast; rfl
      rw [h1, h2, ih (pos + k) (len - k) (k : Int) _ hcont.2 hs1 (by omega)
        (by rw [splice_length _ _ _ (by rw [hlenk]; omega)]; omega)]
      have hss := splice_splice dst pos ((seg_data m).take k) ((chain_bytes next).take (len - k))
        (by rw [hlenk, List.length_take, chain_bytes_length next (fun s h => (hs1 s h).1)]
            omega)
      rw [hlenk] at hss
      rw [hss, hsplit]
    · rw [if_neg hcont]
      have hz : len - k = 0 := by
        by_cases hn : next = []
        · subst hn
          simp only [chain_len] at hlen
          omega
        · have : ¬ (len : Int) - (k : Int) > 0 := fun h => hcont ⟨h, hn⟩
          omega
      have h1 : (len : Int) - (k : Int) = 0 := by omega
      rw [h1, hsplit, hz, List.take_zero, List.append_nil]

/-- The copy loop from the start (`copy` is 0, nothing delivered yet), on
segments that all hold data: it skips `offset` bytes and delivers the next
`len` bytes of the chain. -/
theorem copy_bits_loop_skipping (c : List rte_mbuf) :
    ∀ (offset len : Nat) (dst : List Nat), c ≠ [] →
      (∀ s ∈ c, seg_ok s ∧ 0 < s.data_len) → offset + len ≤ chain_len c →
      len ≤ dst.length →
      copy_bits_loop c (offset : Int) 0 (len : Int) 0 dst
        = some (0, splice dst 0 (((chain_bytes c).drop offset).take len)) := by
  induction c with
  | nil => intro _ _ _ h; exact absurd rfl h
  | cons m next ih =>
    intro offset len dst _ hs hlen hdst
    have hm := hs m (List.mem_cons_self _ _)
    have hs1 : ∀ s ∈ next, seg_ok s ∧ 0 < s.data_len :=
      fun s h => hs s (List.mem_cons_of_mem _ h)
    have hsl := seg_data_length m hm.1
    simp only [chain_len] at hlen
    rw [copy_bits_loop]
    simp only [rte_pktmbuf_data_len]
    by_cases hoff : (offset : Int) < (m.data_len : Int)
    · rw [if_pos hoff]
      obtain ⟨k, hk, hkd⟩ : ∃ k : Nat,
          (if (m.data_len : Int) - (offset : Int) > (len : Int) then (len : Int)
            else (m.data_len : Int) - (offset : Int)) = (k : Int)
            ∧ k = min len (m.data_len - offset) := by
        by_cases hc : (m.data_len : Int) - (offset : Int) > (len : Int)
        · exact ⟨len, by rw [if_pos hc], by omega⟩
        · exact ⟨m.data_len - offset, by rw [if_neg hc]; omega, by omega⟩
      rw [hk]
      rw [rte_memcpy_eq dst m.buf 0 ((m.data_off : Int) + (offset : Int)) (k : Int) 0
        (m.data_off + offset) k rfl (by push_cast; rfl) rfl (by omega)
        (by have := hm.1.1; omega)]
      simp only
      have htk : ((m.buf.drop (m.data_off + offset)).take k)
          = ((seg_data m).drop offset).take k := by
        unfold seg_data
        rw [List.drop_take, List.drop_drop, List.take_take]
        congr 1
        omega
      have hlenk : (((seg_data m).drop offset).take k).length = k := by
        rw [List.length_take, List.length_drop, hsl]; omega
      rw [htk]
      have hsplit : ((chain_bytes (m :: next)).drop offset).take len
          = ((seg_data m).drop offset).take k ++ (chain_bytes next).take (len - k) := by
        simp only [chain_bytes]
        rw [List.drop_append_eq_append_drop, hsl]
        have h0 : offset - m.data_len = 0 := by omega
        rw [h0, List.drop_zero, List.take_append_eq_append_take, List.length_drop, hsl]
        by_cases hc : len ≤ m.data_len - offset
        · have hke : k = len := by omega
          rw [hke]
          have h0 : len - (m.data_len - offset) = 0 := by omega
          rw [h0, Nat.sub_self]
        · have hke : k = m.data_len - offset := by omega
          have ha : ((seg_data m).drop offset).take len = (seg_data m).drop offset :=
            List.take_of_length_le (by rw [List.length_drop, hsl]; omega)
          have hb : ((seg_data m).drop offset).take (m.data_len - offset)
              = (seg_data m).drop offset :=
            List.take_of_length_le (by rw [List.length_drop, hsl])
          rw [hke, ha, hb]
      by_cases hcont : (len : Int) - (k : Int) > 0 ∧ next ≠ []
      · rw [if_pos hcont]
        have h1 : (len : Int) - (k : Int) = ((len - k : Nat) : Int) := by omega
        have h2 : (0 : Int) + (k : Int) = ((0 + k : Nat) : Int) := by push_cast; rfl
        rw [h1, h2, copy_bits_loop_copying next (0 + k) (len - k) (k : Int) _ hcont.2 hs1
          (by omega) (by rw [splice_length _ _ _ (by rw [hlenk]; omega)]; omega)]
        have hss := splice_splice dst 0 (((seg_data m).drop offset).take k)
          ((chain_bytes next).take (len - k))
          (by rw [hlenk, List.length_take, chain_bytes_length next (fun s h => (hs1 s h).1)]
              omega)
        rw [hlenk] at hss
        rw [hss, hsplit]
      · rw [if_neg hcont]
        have hz : len - k = 0 := by
          by_cases hn : next = []
          · subst hn
            simp only [chain_len] at hlen
            omega
          · have : ¬ (len : Int) - (k : Int) > 0 := fun h => hcont ⟨h, hn⟩
            omega
        have h1 : (len : Int) - (k : Int) = 0 := by omega
        rw [h1, hsplit, hz, List.take_zero, List.append_nil]
    · rw [if_neg hoff]
      have hdrop : ((chain_bytes (m :: next)).drop offset).take len
          = ((chain_bytes next).drop (offset - m.data_len)).take len := by
        simp only [chain_bytes]
        rw [List.drop_append_eq_append_drop, hsl,
          List.drop_of_length_le (by rw [hsl]; omega), List.nil_append]
      by_cases hcont : (len : Int) - 0 > 0 ∧ next ≠ []
      · rw [if_pos hcont]
        have h1 : (offset : Int) - (m.data_len : Int) = ((offset - m.data_len : Nat) : Int) := by
          omega
        have h2 : (len : Int) - 0 = (len : Int) := by omega
        have h3 : (0 : Int) + 0 = 0 := by omega
        rw [h1, h2, h3, ih (offset - m.data_len) len dst hcont.2 hs1 (by omega) hdst, hdrop]
      · rw [if_neg hcont]
        have hz : len = 0 := by
          by_cases hn : next = []
          · subst hn
            simp only [chain_len] at hlen
            omega
          · have : ¬ (len : Int) - 0 > 0 := fun h => hcont ⟨h, hn⟩
            omega
        subst hz
        simp [splice]

/-- On a well-formed chain (total length below `2^31`) none of whose segments
is empty, with `offset + len` inside the chain and a destination of at least
`len` bytes, `dpdk_pcopy` returns `len` and the first `len` bytes of the
destination are the bytes `[offset, offset + len)` of the flattened chain. -/
theorem dpdk_pcopy_nonempty_segments (dst : List Nat) (src : List rte_mbuf) (offset len : Nat)
    (hwf : chain_ok src) (hne : ∀ s ∈ src, 0 < s.data_len)
    (htot : chain_len src < 2 ^ 31) (h : offset + len ≤ chain_len src)
    (hdst : len ≤ dst.length) :
    ∃ dst1, dpdk_pcopy dst src offset len = some ((len : Int), dst1) ∧
      dst1.take len = ((chain_bytes src).drop offset).take len := by
  cases src with
  | nil => exact absurd hwf (by simp [chain_ok])
  | cons m next =>
    have hpl : m.pkt_len = chain_len (m :: next) := hwf.1
    have hsegs : ∀ s ∈ m :: next, seg_ok s ∧ 0 < s.data_len := fun s hs => ⟨hwf.2 s hs, hne s hs⟩
    have hchk : ¬ (offset : Int) > int_of_u32 (rte_pktmbuf_pkt_len m) - (len : Int) := by
      unfold rte_pktmbuf_pkt_len
      rw [int_of_u32_small m.pkt_len (by omega)]
      omega
    have hloop := copy_bits_loop_skipping (m :: next) offset len dst (by simp) hsegs h hdst
    have hcb : dpdk_pktmbuf_copy_bits (m :: next) (offset : Int) dst (len : Int)
        = some (0, splice dst 0 (((chain_bytes (m :: next)).drop offset).take len)) := by
      simp only [dpdk_pktmbuf_copy_bits]
      rw [if_neg hchk, hloop]
      simp
    have hbl : (((chain_bytes (m :: next)).drop offset).take len).length = len := by
      rw [List.length_take, List.length_drop, chain_bytes_length _ hwf.2]
      omega
    refine ⟨splice dst 0 (((chain_bytes (m :: next)).drop offset).take len), ?_, ?_⟩
    · unfold dpdk_pcopy
      rw [int_of_u32_small offset (by omega), int_of_u32_small len (by omega), hcb]
      simp
    · have := splice_zero_take dst (((chain_bytes (m :: next)).drop offset).take len)
      rw [hbl] at this
      exact this

/-- When the header ends strictly before the end of the head segment's valid
data, `dpdk_pheader_pointer` returns the address `buf_addr + data_offset` and
leaves the scratch buffer as it was. -/
theorem dpdk_pheader_pointer_fast (pkt : vr_packet) (m : rte_mbuf) (next : List rte_mbuf)
    (L : Nat) (buf : List Nat)
    (h : (pkt.vp_data : Int) - (m.data_off : Int) + (L : Int) < (m.data_len : Int)) :
    dpdk_pheader_pointer pkt (m :: next) L buf
      = some (hdr_pointer.mbuf_addr (m.buf_addr + pkt.vp_data), buf) := by
  simp only [dpdk_pheader_pointer, rte_pktmbuf_headroom, rte_pktmbuf_data_len]
  rw [if_pos h]


/-! ## MTU lookup failure -/

/-- C11, at the failing input: the MTU lookup fails and stores nothing, the
local `mtu` holds the value 100 left on the stack.  The return value of
`rte_eth_dev_get_mtu` is not looked at: the clamp computes `max_mss` from that
value, `100 - 40 = 60`, and rewrites the advertised 1460 to 60 together with the
checksum. -/
theorem dpdk_adjust_tcp_mss_mtu_lookup_failed :
    (env_mtu_fail 100).rte_eth_dev_get_mtu 0 = none ∧
    tcp_syn syn_mss_1460 0 = 1 ∧
    syn_mss_1460.getD 22 0 * 256 + syn_mss_1460.getD 23 0 = 1460 ∧
    ∃ mem1, dpdk_adjust_tcp_mss (env_mtu_fail 100) syn_mss_1460 (some 0) 0 = Except.ok mem1 ∧
      mem1 ≠ syn_mss_1460 ∧ mem1.getD 22 0 * 256 + mem1.getD 23 0 = 60 := by
  refine ⟨rfl, by decide, by decide, _, rfl, ?_, ?_⟩ <;> decide

/-! ## ECMP UDP source port -/

theorem hash_port_range_eq (k : vr_consts)
    (hse : k.VR_MUDP_PORT_RANGE_START ≤ k.VR_MUDP_PORT_RANGE_END)
    (he : k.VR_MUDP_PORT_RANGE_END ≤ 65535) :
    hash_port_range k = k.VR_MUDP_PORT_RANGE_END - k.VR_MUDP_PORT_RANGE_START := by
  unfold hash_port_range
  have h1 : ((k.VR_MUDP_PORT_RANGE_END : Int) - (k.VR_MUDP_PORT_RANGE_START : Int))
      = ((k.VR_MUDP_PORT_RANGE_END - k.VR_MUDP_PORT_RANGE_START : Nat) : Int) := by omega
  rw [h1, Int.emod_eq_of_lt (by omega) (by omega)]
  simp

theorem port_of_hash_range (k : vr_consts) (hashval : Nat) (hh : hashval < 2 ^ 32)
    (hse : k.VR_MUDP_PORT_RANGE_START ≤ k.VR_MUDP_PORT_RANGE_END)
    (he : k.VR_MUDP_PORT_RANGE_END ≤ 65535) :
    hash_port k hashval
      = hashval * (k.VR_MUDP_PORT_RANGE_END - k.VR_MUDP_PORT_RANGE_START) / 2 ^ 32 ∧
    hash_port k hashval ≤ hash_port_range k ∧
    port_of_hash k hashval = k.VR_MUDP_PORT_RANGE_START + hash_port k hashval ∧
    k.VR_MUDP_PORT_RANGE_START ≤ port_of_hash k hashval ∧
    port_of_hash k hashval ≤ k.VR_MUDP_PORT_RANGE_END := by
  obtain ⟨w, hw⟩ : ∃ w, w = k.VR_MUDP_PORT_RANGE_END - k.VR_MUDP_PORT_RANGE_START := ⟨_, rfl⟩
  have hrange : hash_port_range k = w := by rw [hw]; exact hash_port_range_eq k hse he
  have hprod : hashval * w ≤ 2 ^ 32 * w := Nat.mul_le_mul_right w (Nat.le_of_lt hh)
  have hdiv : hashval * w / 2 ^ 32 ≤ w := Nat.div_le_of_le_mul hprod
  have hlt64 : hashval * w < 2 ^ 64 := by
    have : 2 ^ 32 * w ≤ 2 ^ 32 * 65535 := Nat.mul_le_mul_left _ (by omega)
    omega
  have hport : hash_port k hashval = hashval * w / 2 ^ 32 := by
    unfold hash_port
    rw [hrange, Nat.mod_eq_of_lt hlt64]
    exact Nat.mod_eq_of_lt (by omega)
  have hval : port_of_hash k hashval = k.VR_MUDP_PORT_RANGE_START + hash_port k hashval := by
    unfold port_of_hash
    simp only
    rw [if_neg (by rw [hport, hrange]; omega), Nat.mod_eq_of_lt (by rw [hport]; omega)]
    omega
  rw [← hw]
  refine ⟨hport, by rw [hport, hrange]; exact hdiv, hval, ?_, ?_⟩
  · rw [hval]; omega
  · rw [hval, hport]; omega

/-- C12: for a port range with `RANGE_START ≤ RANGE_END ≤ 65535` and every
32-bit hash value, the code's `port`, `(hash * (RANGE_END - RANGE_START)) >> 32`
cut to 16 bits, is that shifted product and does not exceed the code's
`port_range`, the range width: the condition `port > port_range` of the clamp
is false, the clamp does not fire, and the value returned is
`RANGE_START + port`, inside `[RANGE_START, RANGE_END]`.  Whatever
`dpdk_get_udp_src_port` returns is the stored port of a resolved flow, the
zero of the error exit, or such a mapped hash, of the 5-tuple for an IP packet
and of the frame and routing context otherwise. -/
theorem dpdk_get_udp_src_port_range (env : udp_env) (hs : hash_state) (pkt : vr_packet)
    (mbuf : rte_mbuf) (fmd : Option vr_forwarding_md) (vrf : Nat)
    (hse : env.consts.VR_MUDP_PORT_RANGE_START ≤ env.consts.VR_MUDP_PORT_RANGE_END)
    (he : env.consts.VR_MUDP_PORT_RANGE_END ≤ 65535) :
    hash_port_range env.consts
      = env.consts.VR_MUDP_PORT_RANGE_END - env.consts.VR_MUDP_PORT_RANGE_START ∧
    (∀ hashval, hashval < 2 ^ 32 →
      hash_port env.consts hashval
        = hashval * (env.consts.VR_MUDP_PORT_RANGE_END - env.consts.VR_MUDP_PORT_RANGE_START)
          / 2 ^ 32 ∧
      ¬ hash_port env.consts hashval > hash_port_range env.consts ∧
      port_of_hash env.consts hashval
        = env.consts.VR_MUDP_PORT_RANGE_START + hash_port env.consts hashval ∧
      env.consts.VR_MUDP_PORT_RANGE_START ≤ port_of_hash env.consts hashval ∧
      port_of_hash env.consts hashval ≤ env.consts.VR_MUDP_PORT_RANGE_END) ∧
    (∀ r, dpdk_get_udp_src_port env hs pkt mbuf fmd vrf = some r →
      (∃ fe, pkt.vp_type = env.consts.VP_TYPE_IP ∧ flow_resolved env fmd = some fe ∧
        r.1 = fe.fe_udp_src_port % 2 ^ 16) ∨
      (pkt.vp_type ≠ env.consts.VP_TYPE_IP ∧ pkt_head_len pkt < ETH_HLEN ∧ r.1 = 0) ∨
      (∃ hashval, hashval < 2 ^ 32 ∧
        ((∃ sport dport ip_src ip_dst,
            pkt.vp_type = env.consts.VP_TYPE_IP ∧ flow_resolved env fmd = none ∧
            udp_ports env mbuf.buf pkt.vp_network_h vrf = some (sport, dport) ∧
            ld32 mbuf.buf (pkt.vp_network_h + 12) = some ip_src ∧
            ld32 mbuf.buf (pkt.vp_network_h + 16) = some ip_dst ∧
            hashval = env.rte_jhash [ip_src, ip_dst, vrf % 2 ^ 16, sport, dport] 20
              (hashrnd_init env hs).vr_hashrnd % 2 ^ 32) ∨
          (pkt.vp_type ≠ env.consts.VP_TYPE_IP ∧ ¬ pkt_head_len pkt < ETH_HLEN ∧
            hashval = env.vr_hash_2words
              (env.vr_hash ((mbuf.buf.drop pkt.vp_data).take ETH_HLEN) ETH_HLEN
                (hashrnd_init env hs).vr_hashrnd % 2 ^ 32)
              (vrf % 2 ^ 16) (hashrnd_init env hs).vr_hashrnd % 2 ^ 32)) ∧
        r.1 = port_of_hash env.consts hashval ∧
        r.1 = env.consts.VR_MUDP_PORT_RANGE_START + hash_port env.consts hashval ∧
        env.consts.VR_MUDP_PORT_RANGE_START ≤ r.1 ∧
        r.1 ≤ env.consts.VR_MUDP_PORT_RANGE_END)) := by
  have hmap : ∀ hashval, hashval < 2 ^ 32 →
      port_of_hash env.consts hashval
        = env.consts.VR_MUDP_PORT_RANGE_START + hash_port env.consts hashval ∧
      env.consts.VR_MUDP_PORT_RANGE_START ≤ port_of_hash env.consts hashval ∧
      port_of_hash env.consts hashval ≤ env.consts.VR_MUDP_PORT_RANGE_END :=
    fun hashval hh => (port_of_hash_range env.consts hashval hh hse he).2.2
  refine ⟨hash_port_range_eq env.consts hse he, ?_, ?_⟩
  · intro hashval hh
    obtain ⟨h1, h2, h3⟩ := port_of_hash_range env.consts hashval hh hse he
    exact ⟨h1, Nat.not_lt.mpr h2, h3⟩
  · intro r hr
    unfold dpdk_get_udp_src_port at hr
    simp only at hr
    by_cases hip : pkt.vp_type = env.consts.VP_TYPE_IP
    · rw [if_pos hip] at hr
      cases hports : udp_ports env mbuf.buf pkt.vp_network_h vrf with
      | none => rw [hports] at hr; simp at hr
      | some ports =>
        obtain ⟨sport, dport⟩ := ports
        rw [hports] at hr
        simp only at hr
        cases hflow : flow_resolved env fmd with
        | some fe =>
          rw [hflow] at hr
          simp only [Option.some.injEq] at hr
          exact Or.inl ⟨fe, hip, rfl, by rw [← hr]⟩
        | none =>
          rw [hflow] at hr
          simp only at hr
          cases hsrc : ld32 mbuf.buf (pkt.vp_network_h + 12) with
          | none => rw [hsrc] at hr; simp at hr
          | some ip_src =>
            cases hdst : ld32 mbuf.buf (pkt.vp_network_h + 16) with
            | none => rw [hsrc, hdst] at hr; simp at hr
            | some ip_dst =>
              rw [hsrc, hdst] at hr
              simp only [Option.some.injEq] at hr
              have hlt : env.rte_jhash [ip_src, ip_dst, vrf % 2 ^ 16, sport, dport] 20
                  (hashrnd_init env hs).vr_hashrnd % 2 ^ 32 < 2 ^ 32 :=
                Nat.mod_lt _ (by decide)
              obtain ⟨hv, hlo, hhi⟩ := hmap _ hlt
              refine Or.inr (Or.inr ⟨_, hlt, Or.inl ⟨sport, dport, ip_src, ip_dst, hip, rfl,
                rfl, rfl, rfl, rfl⟩, ?_, ?_, ?_, ?_⟩)
              · rw [← hr]
              · rw [← hr]; exact hv
              · rw [← hr]; exact hlo
              · rw [← hr]; exact hhi
    · rw [if_neg hip] at hr
      by_cases hshort : pkt_head_len pkt < ETH_HLEN
      · rw [if_pos hshort] at hr
        simp only [Option.some.injEq] at hr
        exact Or.inr (Or.inl ⟨hip, hshort, by rw [← hr]⟩)
      · rw [if_neg hshort] at hr
        by_cases hreg : pkt.vp_data + ETH_HLEN ≤ mbuf.buf.length
        · rw [if_pos hreg] at hr
          simp only [Option.some.injEq] at hr
          have hlt : env.vr_hash_2words
              (env.vr_hash ((mbuf.buf.drop pkt.vp_data).take ETH_HLEN) ETH_HLEN
                (hashrnd_init env hs).vr_hashrnd % 2 ^ 32)
              (vrf % 2 ^ 16) (hashrnd_init env hs).vr_hashrnd % 2 ^ 32 < 2 ^ 32 :=
            Nat.mod_lt _ (by decide)
          obtain ⟨hv, hlo, hhi⟩ := hmap _ hlt
          refine Or.inr (Or.inr ⟨_, hlt, Or.inr ⟨hip, hshort, rfl⟩, ?_, ?_, ?_, ?_⟩)
          · rw [← hr]
          · rw [← hr]; exact hv
          · rw [← hr]; exact hlo
          · rw [← hr]; exact hhi
        · rw [if_neg hreg] at hr
          simp at hr

theorem dpdk_get_udp_src_port_range_witness :
    hash_port (udp_env_0 false).consts 4294967295
      = 4294967295 * ((udp_env_0 false).consts.VR_MUDP_PORT_RANGE_END
          - (udp_env_0 false).consts.VR_MUDP_PORT_RANGE_START) / 2 ^ 32 ∧
    ¬ hash_port (udp_env_0 false).consts 4294967295 > hash_port_range (udp_env_0 false).consts ∧
    port_of_hash (udp_env_0 false).consts 4294967295
      = (udp_env_0 false).consts.VR_MUDP_PORT_RANGE_START
        + hash_port (udp_env_0 false).consts 4294967295 ∧
    (udp_env_0 false).consts.VR_MUDP_PORT_RANGE_START
      ≤ port_of_hash (udp_env_0 false).consts 4294967295 ∧
    port_of_hash (udp_env_0 false).consts 4294967295
      ≤ (udp_env_0 false).consts.VR_MUDP_PORT_RANGE_END :=
  (dpdk_get_udp_src_port_range (udp_env_0 false) { hashrnd_inited := 0, vr_hashrnd := 0 }
    (pkt_of_type 1) (mk_seg 100 (ip_hdr ++ l4_ports_4001_80) 0 24) none 5
    (by decide) (by decide)).2.1 4294967295 (by decide)

theorem ld16_some (mem : List Nat) (i : Nat) (h : i + 2 ≤ mem.length) :
    ld16 mem i = some (mem.getD i 0 + 256 * mem.getD (i + 1) 0) := by
  unfold ld16
  rw [getElem?_getD mem i (by omega), getElem?_getD mem (i + 1) (by omega)]

theorem ld32_some (mem : List Nat) (i : Nat) (h : i + 4 ≤ mem.length) :
    ∃ v, ld32 mem i = some v := by
  unfold ld32
  rw [ld16_some mem i (by omega), ld16_some mem (i + 2) (by omega)]
  exact ⟨_, rfl⟩

/-- With the IP header and the port fields inside the region, the port
selection of `dpdk_get_udp_src_port` loads nothing outside it. -/
theorem udp_ports_some (env : udp_env) (mem : List Nat) (iph vrf : Nat)
    (hin : ip_hdr_in mem iph) : ∃ p, udp_ports env mem iph vrf = some p := by
  have h20 : iph + 20 ≤ mem.length := hin.1
  have hl4 := hin.2
  unfold udp_ports vr_ip_transport_header_valid
  rw [getElem?_getD mem (iph + 6) (by omega), getElem?_getD mem (iph + 7) (by omega)]
  simp only
  by_cases hv : (mem.getD (iph + 6) 0 * 256 + mem.getD (iph + 7) 0) % 8192 = 0
  · rw [decide_eq_true hv]
    simp only
    rw [getElem?_getD mem (iph + 9) (by omega)]
    simp only
    by_cases hp : mem.getD (iph + 9) 0 = VR_IP_PROTO_TCP ∨ mem.getD (iph + 9) 0 = VR_IP_PROTO_UDP
    · rw [if_pos hp, getElem?_getD mem iph (by omega)]
      simp only
      rw [ld16_some mem _ (by omega), ld16_some mem _ (by omega)]
      exact ⟨_, rfl⟩
    · rw [if_neg hp]
      exact ⟨_, rfl⟩
  · rw [decide_eq_false hv]
    simp only
    cases env.vr_fragment_get vrf ((mem.drop iph).take sizeof_vr_ip) with
    | none => exact ⟨_, rfl⟩
    | some frag => exact ⟨_, rfl⟩

/-- C13 as stated fails: for a packet that is not classified as IP the flow
table is not consulted.  With a resolved flow whose entry holds port 50000, an
Ethernet frame gets the port derived from its hash, 49152 here, and a frame
shorter than 14 bytes gets 0. -/
theorem dpdk_get_udp_src_port_l2_ignores_flow :
    flow_resolved (udp_env_0 true) (some { fmd_flow_index := 3 })
      = some { fe_udp_src_port := 50000 } ∧
    (pkt_of_type 0).vp_type ≠ (udp_env_0 true).consts.VP_TYPE_IP ∧
    (dpdk_get_udp_src_port (udp_env_0 true) { hashrnd_inited := 1, vr_hashrnd := 0 }
        (pkt_of_type 0) (mk_seg 100 [0, 0, 0, 0, 0, 1, 0, 0, 0, 0, 0, 2, 8, 6] 0 14)
        (some { fmd_flow_index := 3 }) 5).map (fun r => r.1) = some 49152 ∧
    (dpdk_get_udp_src_port (udp_env_0 true) { hashrnd_inited := 1, vr_hashrnd := 0 }
        { pkt_of_type 0 with vp_tail := 10 }
        (mk_seg 100 [0, 0, 0, 0, 0, 1, 0, 0, 0, 0, 0, 2, 8, 6] 0 14)
        (some { fmd_flow_index := 3 }) 5).map (fun r => r.1) = some 0 := by
  refine ⟨by decide, by decide, by decide, by decide⟩

/-- C13, as amended: for every packet classified as IP whose IP header and
port fields lie in the head segment's region, if the forwarding metadata names
a flow (index at least 0) and the flow table holds an entry for it,
`dpdk_get_udp_src_port` returns that entry's stored source port, whatever the
addresses, ports, routing context and seed are. -/
theorem dpdk_get_udp_src_port_flow (env : udp_env) (hs : hash_state) (pkt : vr_packet)
    (mbuf : rte_mbuf) (md : vr_forwarding_md) (vrf : Nat) (fe : vr_flow_entry)
    (hip : pkt.vp_type = env.consts.VP_TYPE_IP)
    (hin : ip_hdr_in mbuf.buf pkt.vp_network_h)
    (hidx : md.fmd_flow_index ≥ 0)
    (hent : env.vr_get_flow_entry md.fmd_flow_index = some fe)
    (hfe : fe.fe_udp_src_port < 2 ^ 16) :
    ∃ hs1 m1, dpdk_get_udp_src_port env hs pkt mbuf (some md) vrf
      = some (fe.fe_udp_src_port, hs1, m1) := by
  obtain ⟨p, hp⟩ := udp_ports_some env mbuf.buf pkt.vp_network_h vrf hin
  have hflow : flow_resolved env (some md) = some fe := by
    unfold flow_resolved
    simp only
    rw [if_pos hidx, hent]
  refine ⟨hashrnd_init env hs, env.vr_dpdk_mbuf_reset pkt mbuf, ?_⟩
  unfold dpdk_get_udp_src_port
  simp only
  rw [if_pos hip, hp]
  simp only
  rw [hflow]
  simp only
  rw [Nat.mod_eq_of_lt hfe]

theorem dpdk_get_udp_src_port_flow_witness :
    ∃ hs1 m1, dpdk_get_udp_src_port (udp_env_0 true) { hashrnd_inited := 0, vr_hashrnd := 0 }
        (pkt_of_type 1) (mk_seg 100 (ip_hdr ++ l4_ports_4001_80) 0 24)
        (some { fmd_flow_index := 3 }) 5
      = some ((⟨50000⟩ : vr_flow_entry).fe_udp_src_port, hs1, m1) :=
  dpdk_get_udp_src_port_flow (udp_env_0 true) { hashrnd_inited := 0, vr_hashrnd := 0 }
    (pkt_of_type 1) (mk_seg 100 (ip_hdr ++ l4_ports_4001_80) 0 24) { fmd_flow_index := 3 } 5
    { fe_udp_src_port := 50000 } (by decide) (by decide) (by decide) rfl (by decide)

/-- The port of an IP packet for which no flow is resolved, once the ports and
the addresses are known: the hash of the 5-tuple mapped into the range. -/
theorem dpdk_get_udp_src_port_hashed (env : udp_env) (hs : hash_state) (pkt : vr_packet)
    (mbuf : rte_mbuf) (fmd : Option vr_forwarding_md) (vrf sport dport ip_src ip_dst : Nat)
    (hip : pkt.vp_type = env.consts.VP_TYPE_IP)
    (hports : udp_ports env mbuf.buf pkt.vp_network_h vrf = some (sport, dport))
    (hflow : flow_resolved env fmd = none)
    (hsrc : ld32 mbuf.buf (pkt.vp_network_h + 12) = some ip_src)
    (hdst : ld32 mbuf.buf (pkt.vp_network_h + 16) = some ip_dst) :
    (dpdk_get_udp_src_port env hs pkt mbuf fmd vrf).map (fun r => r.1)
      = some (port_of_hash env.consts
          (env.rte_jhash [ip_src, ip_dst, vrf % 2 ^ 16, sport, dport] 20
            (hashrnd_init env hs).vr_hashrnd % 2 ^ 32)) := by
  unfold dpdk_get_udp_src_port
  simp only
  rw [if_pos hip, hports]
  simp only
  rw [hflow]
  simp only
  rw [hsrc, hdst]
  rfl

/-- C14: for every seed state, routing context, addresses and port pair
`(s, d)`, a non-initial IP fragment for which the fragment table returns an
entry with ports `(s, d)` gets the same port as an unfragmented TCP or UDP
packet with the same addresses and routing context whose transport header
carries `(s, d)`, no flow being resolved for either. -/
theorem dpdk_get_udp_src_port_fragment_same (env : udp_env) (hs : hash_state)
    (vrf s d : Nat) (pktA pktB : vr_packet) (mA mB : rte_mbuf)
    (fmdA fmdB : Option vr_forwarding_md)
    (hipA : pktA.vp_type = env.consts.VP_TYPE_IP)
    (hipB : pktB.vp_type = env.consts.VP_TYPE_IP)
    (hinA : ip_hdr_in mA.buf pktA.vp_network_h)
    (hinB : ip_hdr_in mB.buf pktB.vp_network_h)
    (hfragA : vr_ip_transport_header_valid mA.buf pktA.vp_network_h = some false)
    (hentA : env.vr_fragment_get vrf ((mA.buf.drop pktA.vp_network_h).take sizeof_vr_ip)
      = some { f_sport := s, f_dport := d })
    (hs16 : s < 2 ^ 16) (hd16 : d < 2 ^ 16)
    (hvalB : vr_ip_transport_header_valid mB.buf pktB.vp_network_h = some true)
    (hprotoB : mB.buf.getD (pktB.vp_network_h + 9) 0 = VR_IP_PROTO_TCP ∨
      mB.buf.getD (pktB.vp_network_h + 9) 0 = VR_IP_PROTO_UDP)
    (hsB : ld16 mB.buf (pktB.vp_network_h + (mB.buf.getD pktB.vp_network_h 0 % 16) * 4)
      = some s)
    (hdB : ld16 mB.buf (pktB.vp_network_h + (mB.buf.getD pktB.vp_network_h 0 % 16) * 4 + 2)
      = some d)
    (hsrc : ld32 mA.buf (pktA.vp_network_h + 12) = ld32 mB.buf (pktB.vp_network_h + 12))
    (hdst : ld32 mA.buf (pktA.vp_network_h + 16) = ld32 mB.buf (pktB.vp_network_h + 16))
    (hflowA : flow_resolved env fmdA = none) (hflowB : flow_resolved env fmdB = none) :
    ∃ port,
      (dpdk_get_udp_src_port env hs pktA mA fmdA vrf).map (fun r => r.1) = some port ∧
      (dpdk_get_udp_src_port env hs pktB mB fmdB vrf).map (fun r => r.1) = some port := by
  have h20A : pktA.vp_network_h + 20 ≤ mA.buf.length := hinA.1
  have h20B : pktB.vp_network_h + 20 ≤ mB.buf.length := hinB.1
  obtain ⟨ip_src, hsrcA⟩ := ld32_some mA.buf (pktA.vp_network_h + 12) (by omega)
  obtain ⟨ip_dst, hdstA⟩ := ld32_some mA.buf (pktA.vp_network_h + 16) (by omega)
  have hportsA : udp_ports env mA.buf pktA.vp_network_h vrf = some (s, d) := by
    unfold udp_ports
    rw [hfragA]
    simp only
    rw [hentA]
    simp only
    rw [Nat.mod_eq_of_lt hs16, Nat.mod_eq_of_lt hd16]
  have hportsB : udp_ports env mB.buf pktB.vp_network_h vrf = some (s, d) := by
    unfold udp_ports
    rw [hvalB]
    simp only
    rw [getElem?_getD mB.buf (pktB.vp_network_h + 9) (by omega)]
    simp only
    rw [if_pos hprotoB, getElem?_getD mB.buf pktB.vp_network_h (by omega)]
    simp only
    rw [hsB, hdB]
  refine ⟨_, dpdk_get_udp_src_port_hashed env hs pktA mA fmdA vrf s d ip_src ip_dst hipA
    hportsA hflowA hsrcA hdstA, ?_⟩
  exact dpdk_get_udp_src_port_hashed env hs pktB mB fmdB vrf s d ip_src ip_dst hipB
    hportsB hflowB (by rw [← hsrc]; exact hsrcA) (by rw [← hdst]; exact hdstA)

theorem dpdk_get_udp_src_port_fragment_same_witness :
    ∃ port,
      (dpdk_get_udp_src_port (udp_env_0 false) { hashrnd_inited := 0, vr_hashrnd := 0 }
        (pkt_of_type 1) (mk_seg 100 (ip_frag_hdr ++ [0, 0, 0, 0]) 0 24) none 5).map
          (fun r => r.1) = some port ∧
      (dpdk_get_udp_src_port (udp_env_0 false) { hashrnd_inited := 0, vr_hashrnd := 0 }
        (pkt_of_type 1) (mk_seg 200 (ip_hdr ++ l4_ports_4001_80) 0 24)
          (some { fmd_flow_index := -1 }) 5).map (fun r => r.1) = some port :=
  dpdk_get_udp_src_port_fragment_same (udp_env_0 false) { hashrnd_inited := 0, vr_hashrnd := 0 }
    5 4001 80 (pkt_of_type 1) (pkt_of_type 1) (mk_seg 100 (ip_frag_hdr ++ [0, 0, 0, 0]) 0 24)
    (mk_seg 200 (ip_hdr ++ l4_ports_4001_80) 0 24) none (some { fmd_flow_index := -1 })
    (by decide) (by decide) (by decide) (by decide) (by decide) rfl (by decide) (by decide)
    (by decide) (by decide) (by decide) (by decide) (by decide) (by decide) (by decide)
    (by decide)


/-! ## Descriptor operations -/

/-- C15: for a descriptor bound to its head segment (`vp_head` is the
segment's `buf_addr`) with 16-bit offsets and `data_offset ≤ tail_offset`,
`dpdk_pcow` returns 0 exactly when the requested headroom is at most
`data_offset`, the segment's headroom once its data pointer is set from the
descriptor, and `-ENOMEM` otherwise; either way the segment's data-length is
`tail_offset - data_offset`, its packet length the descriptor's length, and the
descriptor is as before. -/
theorem dpdk_pcow_spec (pkt : vr_packet) (mbuf : rte_mbuf) (head_room : Nat)
    (hbound : pkt.vp_head = mbuf.buf_addr)
    (hdata : pkt.vp_data < 2 ^ 16) (htail : pkt.vp_tail < 2 ^ 16) (hlen : pkt.vp_len < 2 ^ 32)
    (hinv : pkt.vp_data ≤ pkt.vp_tail) :
    ((dpdk_pcow pkt mbuf head_room).1 = 0 ↔ head_room ≤ pkt.vp_data) ∧
    ((dpdk_pcow pkt mbuf head_room).1 = -ENOMEM ↔ ¬ head_room ≤ pkt.vp_data) ∧
    rte_pktmbuf_headroom (dpdk_pcow pkt mbuf head_room).2.2 = pkt.vp_data ∧
    (dpdk_pcow pkt mbuf head_room).2.2.data_len = pkt.vp_tail - pkt.vp_data ∧
    (dpdk_pcow pkt mbuf head_room).2.2.pkt_len = pkt.vp_len ∧
    (dpdk_pcow pkt mbuf head_room).2.1 = pkt := by
  have hoff : pkt.vp_head + pkt.vp_data - mbuf.buf_addr = pkt.vp_data := by omega
  have hhl : pkt_head_len pkt % 2 ^ 16 = pkt.vp_tail - pkt.vp_data := by
    unfold pkt_head_len
    have h1 : ((pkt.vp_tail : Int) - (pkt.vp_data : Int))
        = ((pkt.vp_tail - pkt.vp_data : Nat) : Int) := by omega
    rw [h1, Int.emod_eq_of_lt (by omega) (by omega)]
    simp only [Int.toNat_ofNat]
    exact Nat.mod_eq_of_lt (by omega)
  have hpl : pkt_len pkt % 2 ^ 32 = pkt.vp_len := by
    unfold pkt_len
    exact Nat.mod_eq_of_lt (by omega)
  unfold dpdk_pcow
  simp only [rte_pktmbuf_headroom]
  rw [hoff, hhl, hpl]
  have hmod : pkt.vp_data % 2 ^ 16 = pkt.vp_data := Nat.mod_eq_of_lt hdata
  by_cases hgt : head_room > pkt.vp_data % 2 ^ 16
  · rw [if_pos hgt]
    rw [hmod] at hgt
    refine ⟨?_, ?_, rfl, rfl, rfl, rfl⟩
    · simp only [ENOMEM]
      constructor
      · intro h; exact absurd h (by decide)
      · intro h; omega
    · constructor
      · intro _; omega
      · intro _; rfl
  · rw [if_neg hgt]
    rw [hmod] at hgt
    refine ⟨?_, ?_, rfl, rfl, rfl, rfl⟩
    · constructor
      · intro _; omega
      · intro _; rfl
    · simp only [ENOMEM]
      constructor
      · intro h; exact absurd h (by decide)
      · intro h; omega

theorem dpdk_pcow_spec_witness :
    ((dpdk_pcow (mk_pkt 100 2 6 4) (mk_seg 100 [9, 9, 1, 2, 3, 4] 0 0) 3).1 = 0
      ↔ 3 ≤ (mk_pkt 100 2 6 4).vp_data) ∧
    ((dpdk_pcow (mk_pkt 100 2 6 4) (mk_seg 100 [9, 9, 1, 2, 3, 4] 0 0) 3).1 = -ENOMEM
      ↔ ¬ 3 ≤ (mk_pkt 100 2 6 4).vp_data) ∧
    rte_pktmbuf_headroom (dpdk_pcow (mk_pkt 100 2 6 4) (mk_seg 100 [9, 9, 1, 2, 3, 4] 0 0) 3).2.2
      = (mk_pkt 100 2 6 4).vp_data ∧
    (dpdk_pcow (mk_pkt 100 2 6 4) (mk_seg 100 [9, 9, 1, 2, 3, 4] 0 0) 3).2.2.data_len
      = (mk_pkt 100 2 6 4).vp_tail - (mk_pkt 100 2 6 4).vp_data ∧
    (dpdk_pcow (mk_pkt 100 2 6 4) (mk_seg 100 [9, 9, 1, 2, 3, 4] 0 0) 3).2.2.pkt_len
      = (mk_pkt 100 2 6 4).vp_len ∧
    (dpdk_pcow (mk_pkt 100 2 6 4) (mk_seg 100 [9, 9, 1, 2, 3, 4] 0 0) 3).2.1
      = mk_pkt 100 2 6 4 :=
  dpdk_pcow_spec (mk_pkt 100 2 6 4) (mk_seg 100 [9, 9, 1, 2, 3, 4] 0 0) 3 (by decide)
    (by decide) (by decide) (by decide) (by decide)

/-- C16 as stated fails: on a chain of two segments with data-lengths 2 and 2
(logical packet length 4) the descriptor made by `vr_dpdk_packet_get` has
length 2, the data-length of the head segment alone. -/
theorem vr_dpdk_packet_get_len_two_segments :
    chain_ok [{ mk_seg 100 [1, 2] 0 2 with pkt_len := 4, nb_segs := 2 }, mk_seg 200 [3, 4] 0 2] ∧
    chain_len [{ mk_seg 100 [1, 2] 0 2 with pkt_len := 4, nb_segs := 2 }, mk_seg 200 [3, 4] 0 2]
      = 4 ∧
    (vr_dpdk_packet_get consts_0 0 (mk_pkt 100 0 0 0)
      [{ mk_seg 100 [1, 2] 0 2 with pkt_len := 4, nb_segs := 2 }, mk_seg 200 [3, 4] 0 2]
      none).map (fun p => p.vp_len) = some 2 := by
  refine ⟨?_, by decide, by decide⟩
  unfold chain_ok
  decide

/-- C16, as amended: the descriptor that `vr_dpdk_packet_get` creates for a chain
has length equal to the data-length of the head segment; that is the sum of the
data-lengths of all segments when the segments after the head hold no data, in
particular for a chain of one segment. -/
theorem vr_dpdk_packet_get_len (k : vr_consts) (cpu : Nat) (pkt : vr_packet) (m : rte_mbuf)
    (next : List rte_mbuf) (vif : Option Nat) (hm : m.data_len < 2 ^ 16) :
    ∃ p, vr_dpdk_packet_get k cpu pkt (m :: next) vif = some p ∧
      p.vp_len = m.data_len ∧
      (chain_len next = 0 → p.vp_len = chain_len (m :: next)) := by
  refine ⟨_, rfl, ?_, ?_⟩
  · simp only [rte_pktmbuf_data_len]
    exact Nat.mod_eq_of_lt hm
  · intro h0
    simp only [rte_pktmbuf_data_len, chain_len]
    rw [h0, Nat.mod_eq_of_lt hm]
    rfl

theorem vr_dpdk_packet_get_len_witness :
    ∃ p, vr_dpdk_packet_get consts_0 0 (mk_pkt 100 0 0 0)
        (mk_seg 100 [9, 1, 2, 0] 1 2 :: []) none = some p ∧
      p.vp_len = (mk_seg 100 [9, 1, 2, 0] 1 2).data_len ∧
      (chain_len [] = 0 → p.vp_len = chain_len (mk_seg 100 [9, 1, 2, 0] 1 2 :: [])) :=
  vr_dpdk_packet_get_len consts_0 0 (mk_pkt 100 0 0 0) (mk_seg 100 [9, 1, 2, 0] 1 2) [] none
    (by decide)

/-- C17: for a head segment with `headroom + data_length ≤ capacity` and a
descriptor bound to it whose `vp_end` is the segment's capacity, the descriptor
left by `vr_dpdk_packet_get` and the one left by `dpdk_preset` both have
`data_offset = headroom`, `tail_offset = headroom + data_length` and satisfy
`head_offset ≤ data_offset ≤ tail_offset ≤ end_offset`, the head offset being 0,
the start of the region. -/
theorem packet_get_preset_invariant (k : vr_consts) (cpu : Nat) (pkt : vr_packet)
    (m : rte_mbuf) (next : List rte_mbuf) (vif : Option Nat)
    (hseg : m.data_off + m.data_len ≤ m.buf.length)
    (hend : pkt.vp_end = m.buf.length) (hcap : pkt.vp_end < 2 ^ 16) :
    (∃ p, vr_dpdk_packet_get k cpu pkt (m :: next) vif = some p ∧
      p.vp_data = m.data_off ∧ p.vp_tail = m.data_off + m.data_len ∧
      0 ≤ p.vp_data ∧ p.vp_data ≤ p.vp_tail ∧ p.vp_tail ≤ p.vp_end) ∧
    (∃ p, dpdk_preset pkt (m :: next) = some p ∧
      p.vp_data = m.data_off ∧ p.vp_tail = m.data_off + m.data_len ∧
      0 ≤ p.vp_data ∧ p.vp_data ≤ p.vp_tail ∧ p.vp_tail ≤ p.vp_end) := by
  have h1 : m.data_off % 2 ^ 16 = m.data_off := Nat.mod_eq_of_lt (by omega)
  have h2 : (m.data_off + m.data_len) % 2 ^ 16 = m.data_off + m.data_len :=
    Nat.mod_eq_of_lt (by omega)
  constructor
  · refine ⟨_, rfl, ?_, ?_, Nat.zero_le _, ?_, ?_⟩
    · simp only [rte_pktmbuf_headroom]; exact h1
    · simp only [rte_pktmbuf_headroom, rte_pktmbuf_data_len]; exact h2
    · simp only [rte_pktmbuf_headroom, rte_pktmbuf_data_len]; rw [h1, h2]; omega
    · simp only [rte_pktmbuf_headroom, rte_pktmbuf_data_len]; rw [h2]; omega
  · refine ⟨_, rfl, ?_, ?_, Nat.zero_le _, ?_, ?_⟩
    · simp only [rte_pktmbuf_headroom]; exact h1
    · simp only [rte_pktmbuf_headroom, rte_pktmbuf_data_len]; exact h2
    · simp only [rte_pktmbuf_headroom, rte_pktmbuf_data_len]; rw [h1, h2]; omega
    · simp only [rte_pktmbuf_headroom, rte_pktmbuf_data_len]; rw [h2]; omega

theorem packet_get_preset_invariant_witness :
    (∃ p, vr_dpdk_packet_get consts_0 0 { mk_pkt 100 0 0 0 with vp_end := 4 }
        (mk_seg 100 [9, 1, 2, 0] 1 2 :: []) none = some p ∧
      p.vp_data = (mk_seg 100 [9, 1, 2, 0] 1 2).data_off ∧
      p.vp_tail = (mk_seg 100 [9, 1, 2, 0] 1 2).data_off
        + (mk_seg 100 [9, 1, 2, 0] 1 2).data_len ∧
      0 ≤ p.vp_data ∧ p.vp_data ≤ p.vp_tail ∧ p.vp_tail ≤ p.vp_end) ∧
    (∃ p, dpdk_preset { mk_pkt 100 0 0 0 with vp_end := 4 }
        (mk_seg 100 [9, 1, 2, 0] 1 2 :: []) = some p ∧
      p.vp_data = (mk_seg 100 [9, 1, 2, 0] 1 2).data_off ∧
      p.vp_tail = (mk_seg 100 [9, 1, 2, 0] 1 2).data_off
        + (mk_seg 100 [9, 1, 2, 0] 1 2).data_len ∧
      0 ≤ p.vp_data ∧ p.vp_data ≤ p.vp_tail ∧ p.vp_tail ≤ p.vp_end) :=
  packet_get_preset_invariant consts_0 0 { mk_pkt 100 0 0 0 with vp_end := 4 }
    (mk_seg 100 [9, 1, 2, 0] 1 2) [] none (by decide) (by decide) (by decide)

/-! ## Termination of the option scan -/

theorem rd_not_fuel (mem : List Nat) (i : Nat) : rd mem i ≠ Except.error Stop.fuel := by
  unfold rd
  cases mem[i]? <;> simp

theorem wr_not_fuel (mem : List Nat) (i v : Nat) : wr mem i v ≠ Except.error Stop.fuel := by
  unfold wr
  split <;> simp

/-- The body of `case TCPOPT_MAXSEG` has no loop: it never uses up a budget. -/
theorem adjust_maxseg_not_fuel (env : mss_env) (router : vrouter)
    (base lim overlay_len opt_off : Nat) (mem : List Nat) :
    adjust_maxseg env router base lim overlay_len opt_off mem ≠ Except.error Stop.fuel := by
  unfold adjust_maxseg
  split
  · simp
  · cases h1 : rd mem (base + opt_off + 1) with
    | error e =>
      have := rd_not_fuel mem (base + opt_off + 1)
      rw [h1] at this
      simpa using this
    | ok olen =>
      simp only
      split
      · simp
      · cases h2 : rd mem (base + opt_off + 2) with
        | error e =>
          have := rd_not_fuel mem (base + opt_off + 2)
          rw [h2] at this
          simpa using this
        | ok b2 =>
          cases h3 : rd mem (base + opt_off + 3) with
          | error e =>
            have := rd_not_fuel mem (base + opt_off + 3)
            rw [h3] at this
            simpa using this
          | ok b3 =>
            simp only
            cases router.vr_eth_if with
            | none => simp
            | some vif =>
              simp only
              split
              · cases h4 : wr mem (base + opt_off + 2)
                    (max_mss_of ((env.rte_eth_dev_get_mtu (vif.ethdev_port_id % 256)).getD
                      env.mtu_uninit % 2 ^ 16) overlay_len / 256 % 256) with
                | error e =>
                  have := wr_not_fuel mem (base + opt_off + 2)
                    (max_mss_of ((env.rte_eth_dev_get_mtu (vif.ethdev_port_id % 256)).getD
                      env.mtu_uninit % 2 ^ 16) overlay_len / 256 % 256)
                  rw [h4] at this
                  simpa using this
                | ok mem1 =>
                  simp only
                  cases h5 : wr mem1 (base + opt_off + 3)
                      (max_mss_of ((env.rte_eth_dev_get_mtu (vif.ethdev_port_id % 256)).getD
                        env.mtu_uninit % 2 ^ 16) overlay_len % 256) with
                  | error e =>
                    have := wr_not_fuel mem1 (base + opt_off + 3)
                      (max_mss_of ((env.rte_eth_dev_get_mtu (vif.ethdev_port_id % 256)).getD
                        env.mtu_uninit % 2 ^ 16) overlay_len % 256)
                    rw [h5] at this
                    simpa using this
                  | ok mem2 =>
                    simp only
                    cases h6 : rd mem2 (base + 16) with
                    | error e =>
                      have := rd_not_fuel mem2 (base + 16)
                      rw [h6] at this
                      simpa using this
                    | ok c0 =>
                      cases h7 : rd mem2 (base + 17) with
                      | error e =>
                        have := rd_not_fuel mem2 (base + 17)
                        rw [h7] at this
                        simpa using this
                      | ok c1 =>
                        simp only
                        split
                        · rename_i e h8
                          have := wr_not_fuel mem2 (base + 16)
                            (csum_repair ((c0 * 256 + c1) % 2 ^ 16) ((b2 * 256 + b3) % 2 ^ 16)
                              (max_mss_of
                                ((env.rte_eth_dev_get_mtu (vif.ethdev_port_id % 256)).getD
                                  env.mtu_uninit % 2 ^ 16) overlay_len) / 256)
                          rw [h8] at this
                          simpa using this
                        · exact wr_not_fuel _ _ _
              · simp

/-- An iteration that continues hands the loop a strictly larger option
offset. -/
theorem adjust_loop_step (env : mss_env) (router : vrouter) (mem : List Nat)
    (base lim overlay_len opt_off off1 : Nat) (h : opt_next mem base lim opt_off = some off1) :
    opt_off < off1 ∧ ∀ fuel, adjust_loop env router base lim overlay_len (fuel + 1) opt_off mem
      = adjust_loop env router base lim overlay_len fuel off1 mem := by
  unfold opt_next at h
  by_cases hlt : opt_off < lim
  · rw [if_pos hlt] at h
    cases hk : mem[base + opt_off]? with
    | none => rw [hk] at h; simp at h
    | some kind =>
      rw [hk] at h
      simp only at h
      by_cases h0 : kind = TCPOPT_EOL
      · rw [if_pos h0] at h; simp at h
      · rw [if_neg h0] at h
        by_cases h1 : kind = TCPOPT_NOP
        · rw [if_pos h1] at h
          have he : opt_off + 1 = off1 := by simpa using h
          subst he
          refine ⟨by omega, fun fuel => ?_⟩
          rw [adjust_loop, if_pos hlt, rd_eq mem _ kind hk]
          simp only
          rw [if_neg h0, if_pos h1]
        · rw [if_neg h1] at h
          by_cases h2 : kind = TCPOPT_MAXSEG
          · rw [if_pos h2] at h; simp at h
          · rw [if_neg h2] at h
            by_cases h3 : opt_off + 1 = lim
            · rw [if_pos h3] at h; simp at h
            · rw [if_neg h3] at h
              cases hl : mem[base + opt_off + 1]? with
              | none => rw [hl] at h; simp at h
              | some olen =>
                rw [hl] at h
                simp only at h
                by_cases h4 : olen ≠ 0
                · rw [if_pos h4] at h
                  have he : opt_off + olen = off1 := by simpa using h
                  subst he
                  refine ⟨by omega, fun fuel => ?_⟩
                  rw [adjust_loop, if_pos hlt, rd_eq mem _ kind hk]
                  simp only
                  rw [if_neg h0, if_neg h1, if_neg h2, if_neg h3, rd_eq mem _ olen hl]
                  simp only
                  rw [if_pos h4]
                · rw [if_neg h4] at h
                  have he : opt_off + 1 = off1 := by simpa using h
                  subst he
                  refine ⟨by omega, fun fuel => ?_⟩
                  rw [adjust_loop, if_pos hlt, rd_eq mem _ kind hk]
                  simp only
                  rw [if_neg h0, if_neg h1, if_neg h2, if_neg h3, rd_eq mem _ olen hl]
                  simp only
                  rw [if_neg h4]
  · rw [if_neg hlt] at h; simp at h

/-- A budget of as many iterations as bytes remain up to the end of the header
is never used up. -/
theorem adjust_loop_not_fuel (env : mss_env) (router : vrouter) (mem : List Nat)
    (base lim overlay_len : Nat) :
    ∀ (fuel opt_off : Nat), lim ≤ opt_off + fuel →
      adjust_loop env router base lim overlay_len fuel opt_off mem
        ≠ Except.error Stop.fuel := by
  intro fuel
  induction fuel with
  | zero =>
    intro opt_off hfuel
    rw [adjust_loop, if_neg (by omega)]
    simp
  | succ fuel ih =>
    intro opt_off hfuel
    rw [adjust_loop]
    by_cases hlt : opt_off < lim
    · rw [if_pos hlt]
      cases hk : rd mem (base + opt_off) with
      | error e =>
        have := rd_not_fuel mem (base + opt_off)
        rw [hk] at this
        simpa using this
      | ok kind =>
        simp only
        by_cases h0 : kind = TCPOPT_EOL
        · rw [if_pos h0]; simp
        · rw [if_neg h0]
          by_cases h1 : kind = TCPOPT_NOP
          · rw [if_pos h1]
            exact ih (opt_off + 1) (by omega)
          · rw [if_neg h1]
            by_cases h2 : kind = TCPOPT_MAXSEG
            · rw [if_pos h2]
              exact adjust_maxseg_not_fuel env router base lim overlay_len opt_off mem
            · rw [if_neg h2]
              by_cases h3 : opt_off + 1 = lim
              · rw [if_pos h3]; simp
              · rw [if_neg h3]
                cases hl : rd mem (base + opt_off + 1) with
                | error e =>
                  have := rd_not_fuel mem (base + opt_off + 1)
                  rw [hl] at this
                  simpa using this
                | ok olen =>
                  simp only
                  by_cases h4 : olen ≠ 0
                  · rw [if_pos h4]
                    exact ih (opt_off + olen) (by omega)
                  · rw [if_neg h4]
                    exact ih (opt_off + 1) (by omega)
    · rw [if_neg hlt]; simp

/-- C19: for every TCP header, whatever its data-offset field and option
bytes, the option scan of `dpdk_adjust_tcp_mss` terminates.  Every iteration
that continues goes on at a strictly larger option offset, so a budget of
`lim - opt_off` iterations is never used up, and the function, which gives the
loop `doff * 4 - 20` iterations from offset 20, never runs out of them. -/
theorem dpdk_adjust_tcp_mss_scan_terminates (env : mss_env) (router : vrouter)
    (mem : List Nat) (tcph : Option Nat) (base lim overlay_len : Nat) :
    (∀ opt_off off1, opt_next mem base lim opt_off = some off1 →
      opt_off < off1 ∧
      ∀ fuel, adjust_loop env router base lim overlay_len (fuel + 1) opt_off mem
        = adjust_loop env router base lim overlay_len fuel off1 mem) ∧
    (∀ fuel opt_off, lim ≤ opt_off + fuel →
      adjust_loop env router base lim overlay_len fuel opt_off mem
        ≠ Except.error Stop.fuel) ∧
    dpdk_adjust_tcp_mss env mem tcph overlay_len ≠ Except.error Stop.fuel := by
  refine ⟨fun opt_off off1 h => adjust_loop_step env router mem base lim overlay_len
    opt_off off1 h, adjust_loop_not_fuel env router mem base lim overlay_len, ?_⟩
  unfold dpdk_adjust_tcp_mss
  cases tcph with
  | none => simp
  | some b =>
    simp only
    cases hf : rd mem (b + 13) with
    | error e =>
      have := rd_not_fuel mem (b + 13)
      rw [hf] at this
      simpa using this
    | ok flags =>
      simp only
      split
      · simp
      · cases env.router with
        | none => simp
        | some r =>
          simp only
          cases r.vr_eth_if with
          | none => simp
          | some vif =>
            simp only
            cases hd : rd mem (b + 12) with
            | error e =>
              have := rd_not_fuel mem (b + 12)
              rw [hd] at this
              simpa using this
            | ok b12 =>
              simp only
              exact adjust_loop_not_fuel env r mem b _ overlay_len _ _
                (by unfold sizeof_tcphdr; omega)

/-! ## Descriptor of a clone -/

/-- C20, at the failing input: the source descriptor is consistent with its
head segment, which has headroom 1 and the two data bytes 1 2.  The clone's
head segment holds the copy at the pool's default headroom 2, while the
descriptor returned by `dpdk_pclone` keeps the source's offsets 1 and 3: it is
not consistent with the clone's head segment and addresses the bytes 0 1 of the
clone's region, not 1 2. -/
theorem dpdk_pclone_descriptor_offsets :
    pkt_consistent (mk_pkt 100 1 3 2) (mk_seg 100 [9, 1, 2, 0] 1 2) ∧
    pkt_bytes (mk_pkt 100 1 3 2) (mk_seg 100 [9, 1, 2, 0] 1 2) = [1, 2] ∧
    ∃ pkt_copy mc rest mp1,
      dpdk_pclone (mk_pkt 100 1 3 2) [mk_seg 100 [9, 1, 2, 0] 1 2] pool_two
        = some (some (pkt_copy, mc :: rest), mp1) ∧
      seg_data mc = [1, 2] ∧ mc.data_off = 2 ∧ pkt_copy.vp_data = 1 ∧
      ¬ pkt_consistent pkt_copy mc ∧ pkt_bytes pkt_copy mc = [0, 1] := by
  refine ⟨by decide, by decide, _, _, _, _, rfl, ?_, ?_, ?_, ?_, ?_⟩ <;> decide


/-! ## Bytes accessed by the clamp -/

/-- The body of `case TCPOPT_MAXSEG` at an option offset inside a header that
lies in memory: no access leaves the header, the length of the memory is kept
and only the two MSS value bytes and the two checksum bytes may differ
afterwards. -/
theorem adjust_maxseg_frame (env : mss_env) (router : vrouter) (mem : List Nat)
    (base lim overlay_len k : Nat) (hk : 20 ≤ k) (hmem : base + lim ≤ mem.length) :
    ∃ mem1, adjust_maxseg env router base lim overlay_len k mem = Except.ok mem1 ∧
      mem1.length = mem.length ∧
      ∀ i, i ≠ base + k + 2 → i ≠ base + k + 3 → i ≠ base + 16 → i ≠ base + 17 →
        mem1[i]? = mem[i]? := by
  unfold adjust_maxseg
  by_cases hcut : k + TCPOLEN_MAXSEG > lim
  · rw [if_pos hcut]
    exact ⟨mem, rfl, rfl, fun _ _ _ _ _ => rfl⟩
  · rw [if_neg hcut]
    have hcut4 : ¬ k + 4 > lim := hcut
    rw [rd_eq mem _ _ (getElem?_getD mem (base + k + 1) (by omega))]
    simp only
    by_cases holen : mem.getD (base + k + 1) 0 ≠ TCPOLEN_MAXSEG
    · rw [if_pos holen]
      exact ⟨mem, rfl, rfl, fun _ _ _ _ _ => rfl⟩
    · rw [if_neg holen, rd_eq mem _ _ (getElem?_getD mem (base + k + 2) (by omega)),
        rd_eq mem _ _ (getElem?_getD mem (base + k + 3) (by omega))]
      simp only
      cases router.vr_eth_if with
      | none => exact ⟨mem, rfl, rfl, fun _ _ _ _ _ => rfl⟩
      | some vif =>
        simp only
        split
        · rw [wr_eq mem _ _ (by omega)]
          simp only
          rw [wr_eq _ _ _ (by rw [List.length_set]; omega)]
          simp only
          rw [rd_eq _ _ _ (getElem?_getD _ (base + 16)
              (by simp only [List.length_set]; omega)),
            rd_eq _ _ _ (getElem?_getD _ (base + 17)
              (by simp only [List.length_set]; omega))]
          simp only
          rw [wr_eq _ _ _ (by simp only [List.length_set]; omega)]
          simp only
          rw [wr_eq _ _ _ (by simp only [List.length_set]; omega)]
          refine ⟨_, rfl, by simp only [List.length_set], ?_⟩
          intro i h2 h3 h16 h17
          rw [List.getElem?_set_ne (Ne.symm h17), List.getElem?_set_ne (Ne.symm h16),
            List.getElem?_set_ne (Ne.symm h3), List.getElem?_set_ne (Ne.symm h2)]
        · exact ⟨mem, rfl, rfl, fun _ _ _ _ _ => rfl⟩

/-- C21 as stated fails: a SYN header whose data-offset field is 3 declares 12
bytes, yet the function reads the flags at index 13 (and the data-offset field
itself at index 12).  On the 20-byte header the call returns; on a memory that
ends at index 12, the end of the declared header, the read of the flags falls
outside. -/
theorem dpdk_adjust_tcp_mss_reads_fixed_header :
    tcp_syn syn_doff_3 0 = 1 ∧ tcp_hdr_len syn_doff_3 0 = 12 ∧
    (syn_doff_3.take 12).length = 0 + tcp_hdr_len syn_doff_3 0 ∧
    dpdk_adjust_tcp_mss (env_mtu 1400) syn_doff_3 (some 0) 0 = Except.ok syn_doff_3 ∧
    dpdk_adjust_tcp_mss (env_mtu 1400) (syn_doff_3.take 12) (some 0) 0
      = Except.error Stop.fault := by
  refine ⟨by decide, by decide, by decide, rfl, rfl⟩

/-- C21, as amended: for a TCP header whose data-offset field is at least 4
and whose declared header lies in the packet memory, `dpdk_adjust_tcp_mss`
returns without an access outside the memory, whatever the option bytes are.
This holds in particular for a memory that ends where the declared header
ends, at index `doff * 4` from the start of the header: every byte read or
written lies below `doff * 4`.  The memory keeps its length, and it is either
unchanged or differs at most in the two MSS value bytes of the option the scan
reached and in the two checksum bytes. -/
theorem dpdk_adjust_tcp_mss_accesses (env : mss_env) (mem : List Nat)
    (base overlay_len : Nat)
    (hmem : base + tcp_hdr_len mem base ≤ mem.length)
    (hdoff : 16 ≤ tcp_hdr_len mem base) :
    ∃ mem1, dpdk_adjust_tcp_mss env mem (some base) overlay_len = Except.ok mem1 ∧
      mem1.length = mem.length ∧
      (mem1 = mem ∨
        ∃ k, mss_scan mem base (tcp_hdr_len mem base) (tcp_hdr_len mem base - 20) 20 = some k ∧
          k + 4 ≤ tcp_hdr_len mem base ∧
          ∀ i, i ≠ base + k + 2 → i ≠ base + k + 3 → i ≠ base + 16 → i ≠ base + 17 →
            mem1[i]? = mem[i]?) := by
  have h12 := getElem?_getD mem (base + 12) (by omega)
  have h13 := getElem?_getD mem (base + 13) (by omega)
  simp only [dpdk_adjust_tcp_mss]
  rw [rd_eq mem _ _ h13]
  simp only
  split
  · exact ⟨mem, rfl, rfl, Or.inl rfl⟩
  · cases env.router with
    | none => exact ⟨mem, rfl, rfl, Or.inl rfl⟩
    | some router =>
      simp only
      cases router.vr_eth_if with
      | none => exact ⟨mem, rfl, rfl, Or.inl rfl⟩
      | some vif =>
        simp only
        rw [rd_eq mem _ _ h12]
        simp only
        have hlim : mem.getD (base + 12) 0 / 16 % 16 * 4 = tcp_hdr_len mem base := rfl
        rw [hlim]
        cases hscan : mss_scan mem base (tcp_hdr_len mem base)
            (tcp_hdr_len mem base - 20) 20 with
        | none =>
          refine ⟨mem, ?_, rfl, Or.inl rfl⟩
          exact adjust_loop_scan_none env router mem base (tcp_hdr_len mem base) overlay_len
            hmem _ _ (by unfold sizeof_tcphdr; omega) hscan
        | some k =>
          obtain ⟨hloop, hk20, _⟩ := adjust_loop_scan_some env router mem base
            (tcp_hdr_len mem base) overlay_len k _ _ hscan
          obtain ⟨mem1, hrun, hl1, hframe⟩ := adjust_maxseg_frame env router mem base
            (tcp_hdr_len mem base) overlay_len k hk20 hmem
          refine ⟨mem1, ?_, hl1, ?_⟩
          · have hl : adjust_loop env router base (tcp_hdr_len mem base) overlay_len
                (tcp_hdr_len mem base - sizeof_tcphdr) sizeof_tcphdr mem
                = adjust_maxseg env router base (tcp_hdr_len mem base) overlay_len k mem :=
              hloop
            rw [hl, hrun]
          · by_cases hwf : k + 4 ≤ tcp_hdr_len mem base
            · exact Or.inr ⟨k, rfl, hwf, hframe⟩
            · left
              have hcut : k + TCPOLEN_MAXSEG > tcp_hdr_len mem base := by
                unfold TCPOLEN_MAXSEG; omega
              have : adjust_maxseg env router base (tcp_hdr_len mem base) overlay_len k mem
                  = Except.ok mem := by
                unfold adjust_maxseg
                rw [if_pos hcut]
              rw [this] at hrun
              exact (Except.ok.inj hrun).symm

theorem dpdk_adjust_tcp_mss_accesses_witness :
    syn_nop_mss_1460.length = 0 + tcp_hdr_len syn_nop_mss_1460 0 ∧
    ∃ mem1, dpdk_adjust_tcp_mss (env_mtu 1400) syn_nop_mss_1460 (some 0) 0 = Except.ok mem1 ∧
      mem1.length = syn_nop_mss_1460.length ∧
      (mem1 = syn_nop_mss_1460 ∨
        ∃ k, mss_scan syn_nop_mss_1460 0 (tcp_hdr_len syn_nop_mss_1460 0)
            (tcp_hdr_len syn_nop_mss_1460 0 - 20) 20 = some k ∧
          k + 4 ≤ tcp_hdr_len syn_nop_mss_1460 0 ∧
          ∀ i, i ≠ 0 + k + 2 → i ≠ 0 + k + 3 → i ≠ 0 + 16 → i ≠ 0 + 17 →
            mem1[i]? = syn_nop_mss_1460[i]?) :=
  ⟨by decide,
    dpdk_adjust_tcp_mss_accesses (env_mtu 1400) syn_nop_mss_1460 0 0 (by decide) (by decide)⟩

end VrDpdk
